import Mathlib

/-!
Verification development for the street-name reconciliation engine
(`normalization.py`, `map_of_adjacents.py`, `pipeline.py`,
`src/pipeline.py`, `src/utils/ai_resolver.py`).

The Python code is shallowly embedded: dataframes become lists of records,
floats become rationals, `None`/NaN become `Option`, and the regex
substitutions of `normalize_street_name` become explicit scanners over
`List Char` that mirror `re.sub` semantics (word boundaries, greedy
optional punctuation, left-to-right non-overlapping matching).
-/

namespace StreetsNameId

/-- The ASCII apostrophe character (code point 39). -/
def apos : Char := Char.ofNat 39

/-- Python regex word characters (`\w` with `re.UNICODE`), restricted to the
alphabets appearing in this repository's data: ASCII alphanumerics, the
underscore, and the Hebrew letter block U+05D0..U+05EA.  Other Unicode
letters are outside the model. -/
def isWordChar (c : Char) : Bool :=
  c.isAlphanum || c == '_' || (0x5D0 ≤ c.toNat && c.toNat ≤ 0x5EA)

/-- Word-boundary test for a match that starts with a word character:
`\b` holds before it iff we are at the start of the string or the previous
character is a non-word character. -/
def bdry : Option Char → Bool
  | none => true
  | some c => !isWordChar c

/-- Whitespace, as matched by `\s` / stripped by `str.strip` (the data only
contains ASCII whitespace). -/
def isWs (c : Char) : Bool := c.isWhitespace

/-- Python `str.rstrip()`: drop trailing whitespace. -/
def trimRight : List Char → List Char
  | [] => []
  | c :: t =>
    match trimRight t with
    | [] => if isWs c then [] else [c]
    | r => c :: r

/-- Python `str.strip()`: drop leading and trailing whitespace. -/
def trimWs (l : List Char) : List Char := trimRight (l.dropWhile isWs)

/-- `str.replace("'", "")`: remove every apostrophe. -/
def removeApos (l : List Char) : List Char := l.filter (fun c => !(c == apos))

/-- The separator punctuation class of `re.sub(r'[.,-]', ' ', name)`. -/
def isSepPunct (c : Char) : Bool := c == '.' || c == ',' || c == '-'

/-- `re.sub(r'[.,-]', ' ', name)`: replace each separator punctuation
character by a single space. -/
def punctToSpace (l : List Char) : List Char :=
  l.map (fun c => if isSepPunct c then ' ' else c)

/-- Scanner of `re.sub(r'\s+', ' ', name)`: the flag records whether the
previous character belonged to a whitespace run already replaced. -/
def collapseWsAux : Bool → List Char → List Char
  | _, [] => []
  | inRun, c :: t =>
    if isWs c then
      if inRun then collapseWsAux true t else ' ' :: collapseWsAux true t
    else c :: collapseWsAux false t

/-- `re.sub(r'\s+', ' ', name)`: collapse each whitespace run to one space. -/
def collapseWs (l : List Char) : List Char := collapseWsAux false l

/-- `re.sub(r"\bXY['\.]?\b", repl, ·)` for a two-character abbreviation
`XY` made of word characters, scanning left to right without overlap.
`prev` is the character preceding the current position in the original
string (`none` at the start).  Greedy matching of the optional `['\.]`:
the trailing `\b` after a consumed apostrophe/period requires the next
character to be a word character; otherwise the engine backtracks and
matches the bare abbreviation, whose trailing `\b` requires the next
character to be absent or non-word. -/
def substAbbr (a₁ a₂ : Char) (repl : List Char) : Option Char → List Char → List Char
  | _, [] => []
  | _, [c] => [c]
  | prev, [c₁, c₂] =>
    if bdry prev && c₁ == a₁ && c₂ == a₂ then repl else [c₁, c₂]
  | prev, c₁ :: c₂ :: r₁ :: rtail =>
    if bdry prev && c₁ == a₁ && c₂ == a₂ then
      if r₁ == apos || r₁ == '.' then
        match rtail with
        | r₂ :: _ =>
          if isWordChar r₂ then repl ++ substAbbr a₁ a₂ repl (some r₁) rtail
          else repl ++ substAbbr a₁ a₂ repl (some c₂) (r₁ :: rtail)
        | [] => repl ++ [r₁]
      else if isWordChar r₁ then c₁ :: substAbbr a₁ a₂ repl (some c₁) (c₂ :: r₁ :: rtail)
      else repl ++ substAbbr a₁ a₂ repl (some c₂) (r₁ :: rtail)
    else c₁ :: substAbbr a₁ a₂ repl (some c₁) (c₂ :: r₁ :: rtail)

/-- Expansion of `שד` (boulevard). -/
def sderotRepl : List Char := ['ש', 'ד', 'ר', 'ו', 'ת']

/-- Expansion of `רח` (street). -/
def rehovRepl : List Char := ['ר', 'ח', 'ו', 'ב']

/-- Expansion of `כי` (square). -/
def kikarRepl : List Char := ['כ', 'י', 'כ', 'ר']

/-- The abbreviation-expansion phase of `normalize_street_name`: the three
`re.sub` replacements applied in the source's dictionary order
(`שד`, then `רח`, then `כי`). -/
def expandAbbrs (l : List Char) : List Char :=
  substAbbr 'כ' 'י' kikarRepl none
    (substAbbr 'ר' 'ח' rehovRepl none
      (substAbbr 'ש' 'ד' sderotRepl none l))

/-- `normalize_street_name` from `normalization.py` on a non-null input:
strip, expand the whole-word abbreviations, remove leftover apostrophes,
replace `.`/`,`/`-` by spaces, collapse whitespace runs and strip again. -/
def normalizeChars (l : List Char) : List Char :=
  trimWs (collapseWs (punctToSpace (removeApos (expandAbbrs (trimWs l)))))

/-- String-level wrapper of `normalizeChars` (the `None`/NaN early return of
the source propagates nulls and is not modelled here; every claim about
normalization concerns actual strings). -/
def normalize_street_name (s : String) : String :=
  String.mk (normalizeChars s.toList)

/-- The character before the current position is a word character. -/
def prevWord : Option Char → Bool
  | none => false
  | some c => isWordChar c

/-- The character after the current position is absent or a non-word
character (the trailing `\b` of a bare whole-word match). -/
def nextNonWord : List Char → Bool
  | [] => true
  | c :: _ => !isWordChar c

/-- The character after the current position exists and is a word
character. -/
def nextWord : List Char → Bool
  | [] => false
  | c :: _ => isWordChar c

/-- The head, if any, is not whitespace. -/
def headNotWs : List Char → Bool
  | [] => true
  | c :: _ => !isWs c

/-- The last character, if any, is not whitespace. -/
def lastNotWs : List Char → Bool
  | [] => true
  | [c] => !isWs c
  | _ :: d :: t => lastNotWs (d :: t)

/-- Canonical whitespace form: every whitespace character is a single space
not followed by further whitespace (the invariant established by
`collapseWs`). -/
def wsCanon : List Char → Bool
  | [] => true
  | c :: t => (!isWs c || (c == ' ' && headNotWs t)) && wsCanon t

/-- Scanner deciding whether the two-character abbreviation occurs as a bare
whole word somewhere in the list: a position where `\b` holds on the left
and the trailing `\b` holds right after the two characters. -/
def hasWordAbbr (a₁ a₂ : Char) : Option Char → List Char → Bool
  | _, [] => false
  | _, [_] => false
  | prev, c₁ :: c₂ :: rest =>
    (bdry prev && c₁ == a₁ && c₂ == a₂ && nextNonWord rest)
      || hasWordAbbr a₁ a₂ (some c₁) (c₂ :: rest)

/-- Every occurrence of the two-character abbreviation lies strictly inside
a longer word: its immediate left or right neighbour is a word character. -/
def insideWordOnly (a₁ a₂ : Char) : Option Char → List Char → Bool
  | _, [] => true
  | _, [_] => true
  | prev, c₁ :: c₂ :: rest =>
    (!(c₁ == a₁ && c₂ == a₂) || prevWord prev || nextWord rest)
      && insideWordOnly a₁ a₂ (some c₁) (c₂ :: rest)

/-- Longest common subsequence length: the matched-character count `M` of
the sequence-matching similarity `2M/T` underlying `fuzz.ratio`. -/
def lcs : List Char → List Char → Nat
  | [], _ => 0
  | _ :: _, [] => 0
  | a :: as, b :: bs =>
    if a = b then lcs as bs + 1
    else max (lcs (a :: as) bs) (lcs as (b :: bs))
termination_by a b => a.length + b.length
decreasing_by all_goals (simp only [List.length_cons]; omega)

/-- Python 3 `round` on a rational: round half to even. -/
def pyRound (q : ℚ) : ℤ :=
  if q - ⌊q⌋ < 1/2 then ⌊q⌋
  else if 1/2 < q - ⌊q⌋ then ⌊q⌋ + 1
  else if ⌊q⌋ % 2 = 0 then ⌊q⌋ else ⌊q⌋ + 1

/-- `fuzz.ratio`: `utils.intr(100 * SequenceMatcher.ratio())`, where the
matcher ratio is `2M/T`, under fuzzywuzzy's `check_empty_string` decorator:
the score is 0 whenever either argument is the empty string. -/
def ratioScore (a b : List Char) : ℤ :=
  if a.isEmpty || b.isEmpty then 0
  else pyRound ((200 * (lcs a b : ℚ)) / ((a.length : ℚ) + (b.length : ℚ)))

/-- `fuzzywuzzy.utils.full_process`: replace non-word characters by spaces,
lowercase, strip.  (`asciidammit` only strips Latin-1 high bytes, which the
repository's data does not contain, so it is the identity here.) -/
def full_process (l : List Char) : List Char :=
  trimWs (l.map (fun c => if isWordChar c then c.toLower else ' '))

/-- `str.split()` with no argument: whitespace-run splitting, no empty
tokens.  `acc` holds the current token reversed. -/
def splitWsAux : List Char → List Char → List (List Char)
  | acc, [] => if acc.isEmpty then [] else [acc.reverse]
  | acc, c :: t =>
    if isWs c then
      if acc.isEmpty then splitWsAux [] t else acc.reverse :: splitWsAux [] t
    else splitWsAux (c :: acc) t

/-- Python `str.split()`. -/
def splitWs (l : List Char) : List (List Char) := splitWsAux [] l

/-- Code-point lexicographic order on strings, as compared by Python
`sorted`. -/
def lexLt : List Char → List Char → Bool
  | [], [] => false
  | [], _ :: _ => true
  | _ :: _, [] => false
  | a :: as, b :: bs => if a = b then lexLt as bs else decide (a < b)

/-- Stable insertion step for `sortLex`. -/
def insertLex (x : List Char) : List (List Char) → List (List Char)
  | [] => [x]
  | y :: ys => if lexLt x y then x :: y :: ys else y :: insertLex x ys

/-- Python `sorted` on a list of strings (stable, lexicographic). -/
def sortLex : List (List Char) → List (List Char)
  | [] => []
  | x :: xs => insertLex x (sortLex xs)

/-- `" ".join(tokens)`. -/
def joinSpace : List (List Char) → List Char
  | [] => []
  | [t] => t
  | t :: ts => t ++ ' ' :: joinSpace ts

/-- Python set intersection on deduplicated token lists. -/
def tokensInter (t1 t2 : List (List Char)) : List (List Char) :=
  t1.filter (fun x => t2.contains x)

/-- Python set difference on deduplicated token lists. -/
def tokensDiff (t1 t2 : List (List Char)) : List (List Char) :=
  t1.filter (fun x => !t2.contains x)

/-- `fuzz._process_and_sort`: full-process, split, sort tokens, rejoin. -/
def processAndSort (l : List Char) : List Char :=
  trimWs (joinSpace (sortLex (splitWs (full_process l))))

/-- `fuzz.token_sort_ratio`. -/
def tokenSortScore (a b : List Char) : ℤ :=
  ratioScore (processAndSort a) (processAndSort b)

/-- `fuzz.token_set_ratio` (non-partial variant): the maximum of the three
pairwise ratios of the sorted intersection and the two combined strings;
`0` when either raw or either processed string is empty
(`utils.validate_string`). -/
def tokenSetScore (a b : List Char) : ℤ :=
  if a.isEmpty then 0
  else if b.isEmpty then 0
  else
    let p1 := full_process a
    let p2 := full_process b
    if p1.isEmpty then 0
    else if p2.isEmpty then 0
    else
      let t1 := (splitWs p1).dedup
      let t2 := (splitWs p2).dedup
      let sect := joinSpace (sortLex (tokensInter t1 t2))
      let diff1to2 := joinSpace (sortLex (tokensDiff t1 t2))
      let diff2to1 := joinSpace (sortLex (tokensDiff t2 t1))
      let sorted_sect := trimWs sect
      let combined_1to2 := trimWs (sect ++ ' ' :: diff1to2)
      let combined_2to1 := trimWs (sect ++ ' ' :: diff2to1)
      max (ratioScore sorted_sect combined_1to2)
        (max (ratioScore sorted_sect combined_2to1)
          (ratioScore combined_1to2 combined_2to1))

/-- The blended score of `_calculate_scores`:
`np.average([ratio, token_sort, token_set], weights=[0.2, 0.3, 0.5])`. -/
def weightedAverageScore (r ts tset : ℤ) : ℚ :=
  ((2 * r + 3 * ts + 5 * tset : ℤ) : ℚ) / 10

/-- The blended similarity of two names, as computed per candidate row by
`_calculate_scores`. -/
def blendedScore (a b : String) : ℚ :=
  weightedAverageScore (ratioScore a.toList b.toList)
    (tokenSortScore a.toList b.toList) (tokenSetScore a.toList b.toList)

/-- One row of the registry dataframe (`LAMAS_df`). -/
structure LamasRow where
  LAMAS_id : String
  LAMAS_name : String
  city : String
  normalized_name : String
deriving DecidableEq, Repr

/-- One scored candidate produced by `_calculate_scores`. -/
structure ScoreRec where
  LAMAS_id : String
  LAMAS_name : String
  weighted_score : ℚ
  token_set_score : ℤ
  match_source : String
deriving DecidableEq, Repr

/-- `_calculate_scores` from `normalization.py` (the source spells the name
with a leading underscore): scores one OSM name against every row of the
settlement-scoped registry subset; an absent/NaN or empty name yields no
scores. -/
def calculate_scores (osm_name : Option String) (lamas_subset : List LamasRow) :
    List ScoreRec :=
  match osm_name with
  | none => []
  | some nm =>
    if nm = "" then []
    else
      lamas_subset.map (fun r =>
        { LAMAS_id := r.LAMAS_id
          LAMAS_name := r.LAMAS_name
          weighted_score := blendedScore nm r.normalized_name
          token_set_score := tokenSetScore nm.toList r.normalized_name.toList
          match_source := nm })

/-- One row of the OSM dataframe as `find_fuzzy_candidates` reads it:
identifier, settlement label, the `normalized_name:he` column (`none` for
absent/NaN), and the values of the remaining `normalized_*` columns. -/
structure OsmRow where
  osm_id : String
  city : String
  name_he : Option String
  other_names : List (Option String)
deriving DecidableEq, Repr

/-- One classification row of the candidates dataframe.  `all_candidates`
keeps the retained arbitration candidates as records; the source serialises
them to a text block, which this model does not reproduce. -/
structure CandRow where
  osm_id : String
  status : String
  best_LAMAS_id : Option String
  best_LAMAS_name : Option String
  best_score : ℚ
  all_candidates : Option (List ScoreRec)
deriving DecidableEq, Repr

/-- Python `max(scores, key=...)`: the first element attaining the maximum
key. -/
def pyMax (f : ScoreRec → ℚ) : List ScoreRec → Option ScoreRec
  | [] => none
  | x :: xs => some (xs.foldl (fun acc y => if f acc < f y then y else acc) x)

/-- Insertion step of the descending stable sort modelling
`sort_values(by='weighted_score', ascending=False)`. -/
def insertScore (r : ScoreRec) : List ScoreRec → List ScoreRec
  | [] => [r]
  | y :: ys =>
    if y.weighted_score < r.weighted_score then r :: y :: ys else y :: insertScore r ys

/-- Descending stable sort by blended score (the model fixes a deterministic
tie order; no claim depends on tie-breaking). -/
def sortScoresDesc : List ScoreRec → List ScoreRec
  | [] => []
  | x :: xs => insertScore x (sortScoresDesc xs)

/-- `drop_duplicates(subset=['LAMAS_id'])`: keep the first row per
registry identifier. -/
def dedupById : List String → List ScoreRec → List ScoreRec
  | _, [] => []
  | seen, x :: t =>
    if seen.contains x.LAMAS_id then dedupById seen t
    else x :: dedupById (x.LAMAS_id :: seen) t

/-- `lamas_subset = LAMAS_df[LAMAS_df['city'] == osm_city]`. -/
def lamasSubset (osm_row : OsmRow) (LAMAS_df : List LamasRow) : List LamasRow :=
  LAMAS_df.filter (fun r => r.city == osm_row.city)

/-- The Hebrew-priority scores (`hebrew_scores`): scored only when the
`normalized_name:he` value is truthy. -/
def hebrewScores (osm_row : OsmRow) (LAMAS_df : List LamasRow) : List ScoreRec :=
  match osm_row.name_he with
  | some h => if h = "" then [] else calculate_scores (some h) (lamasSubset osm_row LAMAS_df)
  | none => []

/-- `confident_hebrew_match = [s for s in hebrew_scores if s['weighted_score'] >= 90]`. -/
def confidentHebrew (osm_row : OsmRow) (LAMAS_df : List LamasRow) : List ScoreRec :=
  (hebrewScores osm_row LAMAS_df).filter (fun s => decide (90 ≤ s.weighted_score))

/-- `all_scores`: the Hebrew scores extended with the scores of every
deduplicated fallback name. -/
def allScores (osm_row : OsmRow) (LAMAS_df : List LamasRow) : List ScoreRec :=
  hebrewScores osm_row LAMAS_df
    ++ ((osm_row.other_names.filterMap id).dedup.map
      (fun n => calculate_scores (some n) (lamasSubset osm_row LAMAS_df))).flatten

/-- `scores_df`: all scores sorted by descending blended score and
deduplicated by registry identifier (first, i.e. best, row kept). -/
def scoresDf (osm_row : OsmRow) (LAMAS_df : List LamasRow) : List ScoreRec :=
  dedupById [] (sortScoresDesc (allScores osm_row LAMAS_df))

/-- `ai_candidates`: the scores in `[80, 90)`, top 5 by descending score. -/
def aiCandidates (osm_row : OsmRow) (LAMAS_df : List LamasRow) : List ScoreRec :=
  ((scoresDf osm_row LAMAS_df).filter (fun s =>
    decide (80 ≤ s.weighted_score) && decide (s.weighted_score < 90))).take 5

/-- The per-row classification of `find_fuzzy_candidates`: prioritized
Hebrew matching with an early `CONFIDENT` exit, fallback scoring of the
other name variants, and the `>= 90` / `[80, 90)` / otherwise split. -/
def classifyRow (osm_row : OsmRow) (LAMAS_df : List LamasRow) : CandRow :=
  if (lamasSubset osm_row LAMAS_df).isEmpty then
    ⟨osm_row.osm_id, "MISSING", none, none, 0, none⟩
  else
    match pyMax (fun s => s.weighted_score) (confidentHebrew osm_row LAMAS_df) with
    | some best =>
      ⟨osm_row.osm_id, "CONFIDENT", some best.LAMAS_id, some best.LAMAS_name,
        best.weighted_score, none⟩
    | none =>
      if (allScores osm_row LAMAS_df).isEmpty then
        ⟨osm_row.osm_id, "MISSING", none, none, 0, none⟩
      else if (scoresDf osm_row LAMAS_df).isEmpty then
        ⟨osm_row.osm_id, "MISSING", none, none, 0, none⟩
      else
        match ((scoresDf osm_row LAMAS_df).filter
          (fun s => decide (90 ≤ s.weighted_score))).head? with
        | some c =>
          ⟨osm_row.osm_id, "CONFIDENT", some c.LAMAS_id, some c.LAMAS_name,
            c.weighted_score, none⟩
        | none =>
          match (aiCandidates osm_row LAMAS_df).head? with
          | some b =>
            ⟨osm_row.osm_id, "NEEDS_AI", some b.LAMAS_id, some b.LAMAS_name,
              b.weighted_score, some (aiCandidates osm_row LAMAS_df)⟩
          | none =>
            ⟨osm_row.osm_id, "MISSING", none, none,
              (((scoresDf osm_row LAMAS_df).head?).map
                (fun s => s.weighted_score)).getD 0, none⟩

/-- `find_fuzzy_candidates`: one classification row per OSM row (the empty
dataframe early returns of the source coincide with mapping over `[]`). -/
def find_fuzzy_candidates (osm_df : List OsmRow) (LAMAS_df : List LamasRow) :
    List CandRow :=
  osm_df.map (fun r => classifyRow r LAMAS_df)

/-- The candidate scores the code computes for one OSM row: only the Hebrew
scores when the early confident-Hebrew exit fires, otherwise the Hebrew
scores together with all fallback-name scores. -/
def rowScores (osm_row : OsmRow) (LAMAS_df : List LamasRow) : List ScoreRec :=
  if (confidentHebrew osm_row LAMAS_df).isEmpty then allScores osm_row LAMAS_df
  else hebrewScores osm_row LAMAS_df

/-- The top blended score of a candidate list (0 for an empty list). -/
def maxScore : List ScoreRec → ℚ
  | [] => 0
  | x :: xs => xs.foldl (fun m r => max m r.weighted_score) x.weighted_score

/-- A 2D coordinate key.  The source compares endpoint tuples by exact
floating-point equality; any type with decidable equality models this, and
integer pairs keep concrete evaluation kernel-friendly. -/
abbrev Pt := ℤ × ℤ

/-- One row of the OSM GeoDataFrame as `build_adjacency_map` uses it.  The
geometry is a non-empty coordinate sequence (head plus rest);
`start_point`/`end_point` are the two columns the function writes into the
frame. -/
structure OsmSeg where
  osm_id : String
  geometry : Pt × List Pt
  start_point : Option Pt
  end_point : Option Pt
deriving DecidableEq, Repr

/-- `geom.coords[0]`. -/
def coordsFirst (g : Pt × List Pt) : Pt := g.1

/-- `geom.coords[-1]`. -/
def coordsLast (g : Pt × List Pt) : Pt := g.2.getLastD g.1

/-- `endpoint_index.setdefault(key, []).append(osm_id)`. -/
def epAppend (d : List (Pt × List String)) (k : Pt) (v : String) :
    List (Pt × List String) :=
  match d with
  | [] => [(k, [v])]
  | (k2, vs) :: t =>
    if k2 = k then (k2, vs ++ [v]) :: t else (k2, vs) :: epAppend t k v

/-- `endpoint_index.get(key, [])`. -/
def epGet (d : List (Pt × List String)) (k : Pt) : List String :=
  match d.find? (fun e => decide (e.1 = k)) with
  | some e => e.2
  | none => []

/-- `adjacency_map[osm_id] = ...` (dict write, last assignment wins). -/
def mapSet (m : List (String × List String)) (k : String) (v : List String) :
    List (String × List String) :=
  match m with
  | [] => [(k, v)]
  | (k2, v2) :: t => if k2 = k then (k, v) :: t else (k2, v2) :: mapSet t k v

/-- Dict lookup in the adjacency map. -/
def mapGet (m : List (String × List String)) (k : String) :
    Option (List String) :=
  (m.find? (fun e => e.1 == k)).map (fun e => e.2)

/-- The endpoint-column assignment applied to one row:
`start_point = geom.coords[0]`, `end_point = geom.coords[-1]`. -/
def adjRow (r : OsmSeg) : OsmSeg :=
  { r with start_point := some (coordsFirst r.geometry)
           end_point := some (coordsLast r.geometry) }

/-- The frame after `build_adjacency_map` assigns the two endpoint
columns. -/
def adjRows (osm_gdf : List OsmSeg) : List OsmSeg := osm_gdf.map adjRow

/-- `endpoint_index`: each endpoint mapped to the ids of the segments
registered at it, in iteration order (start before end per row). -/
def endpointIndex (osm_gdf : List OsmSeg) : List (Pt × List String) :=
  (adjRows osm_gdf).foldl (fun idx r =>
    epAppend (epAppend idx (coordsFirst r.geometry) r.osm_id)
      (coordsLast r.geometry) r.osm_id) []

/-- The `adjacents` set collected for one row: ids registered at either of
its endpoints, the row's own id excluded; `list(set(...))` is modelled as
a deduplicated list, membership being what the claims use. -/
def segAdjacents (idx : List (Pt × List String)) (r : OsmSeg) : List String :=
  ((epGet idx (coordsFirst r.geometry)
    ++ epGet idx (coordsLast r.geometry)).filter
      (fun cid => !(cid == r.osm_id))).dedup

/-- `build_adjacency_map` from `map_of_adjacents.py`.  It returns both the
mutated frame (the function assigns the `start_point` and `end_point`
columns into its argument) and the adjacency dictionary. -/
def build_adjacency_map (osm_gdf : List OsmSeg) :
    List OsmSeg × List (String × List String) :=
  if osm_gdf.isEmpty then (osm_gdf, [])
  else
    (adjRows osm_gdf,
      (adjRows osm_gdf).foldl (fun m r =>
        mapSet m r.osm_id (segAdjacents (endpointIndex osm_gdf) r)) [])

/-- `map_of_adjacents.get(osm_id, [])` over the built map. -/
def adjacencyOf (osm_gdf : List OsmSeg) (i : String) : List String :=
  (mapGet (build_adjacency_map osm_gdf).2 i).getD []

/-- Python truthiness of an optional string (`if not API_KEY`). -/
def pyTruthyOptStr : Option String → Bool
  | none => false
  | some s => !s.isEmpty

/-- pandas `astype(str)` on a nullable string column: NaN prints as
`"nan"`. -/
def pyStrOpt : Option String → String
  | none => "nan"
  | some s => s

/-- One row of the AI-decisions dataframe. -/
structure AiRow where
  osm_id : String
  ai_LAMAS_id : String
deriving DecidableEq, Repr

/-- Retry budget of `get_ai_resolution`. -/
def MAX_RETRIES : Nat := 3

/-- The response-cleaning step of `get_ai_resolution`: strip the extracted
reply, keep exactly its digit characters, and return the `'None'` sentinel
when no digit remains.  (`str.isdigit` is modelled on decimal digits; other
Unicode digit-like characters are outside the model.) -/
def cleanAiText (text : String) : String :=
  let clean := (trimWs text.toList).filter Char.isDigit
  if clean.isEmpty then "None" else String.mk clean

/-- The retry loop of `get_ai_resolution` over per-attempt transport
outcomes: `none` is a raised `RequestException`, `some t` a successful
response whose extracted text is `t`.  On the last failed attempt the
function returns `'None'`. -/
def aiAttemptLoop : Nat → List (Option String) → String
  | 0, _ => "None"
  | _ + 1, [] => "None"
  | n + 1, o :: rest =>
    match o with
    | some text => cleanAiText text
    | none => if n = 0 then "None" else aiAttemptLoop n rest

/-- `get_ai_resolution` from `pipeline.py` / `src/utils/ai_resolver.py`,
with the HTTP transport abstracted into the list of attempt outcomes. -/
def get_ai_resolution (api_key : Option String) (attempts : List (Option String)) :
    String :=
  if pyTruthyOptStr api_key then aiAttemptLoop MAX_RETRIES attempts else "None"

/-- Step 5 of `run_pipeline`: when AI is enabled and a key is present, each
`NEEDS_AI` candidate row of the processed city is resolved through the
arbitrator (abstracted as `resolve`); otherwise the decision list is
empty. -/
def aiStep (use_ai : Bool) (api_key : Option String) (resolve : String → String)
    (osm_ids_in_city : List String) (cands : List CandRow) : List AiRow :=
  if use_ai && pyTruthyOptStr api_key then
    (cands.filter (fun c =>
      c.status == "NEEDS_AI" && osm_ids_in_city.contains c.osm_id)).map
      (fun c => ⟨c.osm_id, resolve c.osm_id⟩)
  else []

/-- One row of `final_mapping_df`. -/
structure FinalRow where
  osm_id : String
  status : String
  best_LAMAS_id : Option String
  ai_LAMAS_id : Option String
  final_LAMAS_id : String
deriving DecidableEq, Repr

/-- Step 6 of `run_pipeline`: left-merge the AI decisions into the
candidate rows, keep the rows `status == 'CONFIDENT'` or
(`status == 'NEEDS_AI'` and `astype(str) != 'None'`), and compute
`final_LAMAS_id` from the confident best or the AI decision, as a string
(`astype(str)`, so a missing decision prints as `"nan"`). -/
def run_merge (cands : List CandRow) (ai_rows : List AiRow) : List FinalRow :=
  let merged := cands.map (fun c =>
    (c, (ai_rows.find? (fun a => a.osm_id == c.osm_id)).map (fun a => a.ai_LAMAS_id)))
  let final := merged.filter (fun x =>
    x.1.status == "CONFIDENT"
      || (x.1.status == "NEEDS_AI" && !(pyStrOpt x.2 == "None")))
  final.map (fun x =>
    { osm_id := x.1.osm_id
      status := x.1.status
      best_LAMAS_id := x.1.best_LAMAS_id
      ai_LAMAS_id := x.2
      final_LAMAS_id :=
        if x.1.status == "CONFIDENT" then pyStrOpt x.1.best_LAMAS_id
        else pyStrOpt x.2 })

/-- One row of `diagnostic_df_full` as `calculate_diagnostics` reads it. -/
structure DiagRow where
  normalized_name : String
  status : Option String
  final_LAMAS_id : Option String
deriving DecidableEq, Repr

/-- One row of `lamas_in_city_df` as `calculate_diagnostics` reads it. -/
structure LamasCityRow where
  LAMAS_id : String
  LAMAS_name : String
deriving DecidableEq, Repr

/-- `astype(str).str.replace(r'\.0$', '', regex=True)`. -/
def stripDot0 (s : String) : String :=
  match s.toList.reverse with
  | c0 :: c1 :: rest =>
    if c0 = Char.ofNat 48 ∧ c1 = Char.ofNat 46 then String.mk rest.reverse else s
  | _ => s

/-- Insertion step of Python `sorted` over strings. -/
def insertStr (x : String) : List String → List String
  | [] => [x]
  | y :: ys => if lexLt x.toList y.toList then x :: y :: ys else y :: insertStr x ys

/-- Python `sorted` over strings. -/
def sortStr : List String → List String
  | [] => []
  | x :: xs => insertStr x (sortStr xs)

/-- `groupby('LAMAS_id')['LAMAS_name'].first()`: one representative row per
identifier, first occurrence winning. -/
def dedupByLamasId : List String → List LamasCityRow → List LamasCityRow
  | _, [] => []
  | seen, r :: t =>
    if seen.contains r.LAMAS_id then dedupByLamasId seen t
    else r :: dedupByLamasId (r.LAMAS_id :: seen) t

/-- The diagnostic summary of `calculate_diagnostics` (`src/pipeline.py`);
the percentage string formatting is not modelled. -/
structure Diagnostics where
  total_osm_streets : Nat
  confident_matches : Nat
  ai_resolved_matches : Nat
  total_matched : Nat
  unmatched_osm_streets : Int
  unmatched_osm_street_names : List String
  total_lamas_streets : Nat
  unmatched_lamas_count : Nat
  unmatched_lamas_street_names : List String
deriving DecidableEq, Repr

/-- `calculate_diagnostics` from `src/pipeline.py`: unique-name OSM counts,
and registry statistics restricted to 3-digit identifiers, grouped by
identifier so that an identifier matched under any synonym name is not
reported unmatched. -/
def calculate_diagnostics (lamas_in_city : List LamasCityRow)
    (diag : List DiagRow) (osm_names : List (Option String)) : Diagnostics :=
  let named := osm_names.filterMap id
  let total_osm := named.dedup.length
  let confident := ((diag.filter (fun d => d.status == some "CONFIDENT")).map
    (fun d => d.normalized_name)).dedup.length
  let ai_resolved := ((diag.filter (fun d =>
    d.status == some "NEEDS_AI" && d.final_LAMAS_id.isSome)).map
    (fun d => d.normalized_name)).dedup.length
  let matched_names := ((diag.filter (fun d => d.final_LAMAS_id.isSome)).map
    (fun d => d.normalized_name)).dedup
  let total_matched := matched_names.length
  let unmatched_osm_names := sortStr (named.dedup.filter
    (fun n => !(matched_names.contains n)))
  let lamas_streets_only := lamas_in_city.filter
    (fun r => r.LAMAS_id.length == 3)
  let total_lamas := ((lamas_streets_only.map (fun r => r.LAMAS_id)).dedup).length
  let matched_lamas_ids := ((diag.filterMap (fun d => d.final_LAMAS_id)).map
    stripDot0).dedup
  let unmatched_lamas := lamas_streets_only.filter
    (fun r => !(matched_lamas_ids.contains r.LAMAS_id))
  { total_osm_streets := total_osm
    confident_matches := confident
    ai_resolved_matches := ai_resolved
    total_matched := total_matched
    unmatched_osm_streets := (total_osm : Int) - (total_matched : Int)
    unmatched_osm_street_names := unmatched_osm_names
    total_lamas_streets := total_lamas
    unmatched_lamas_count := ((unmatched_lamas.map (fun r => r.LAMAS_id)).dedup).length
    unmatched_lamas_street_names :=
      sortStr ((dedupByLamasId [] unmatched_lamas).map (fun r => r.LAMAS_name)) }


theorem bdry_eq_not_prevWord (p : Option Char) : bdry p = !prevWord p := by
  cases p <;> simp [bdry, prevWord]

theorem isWordChar_apos : isWordChar apos = false := by decide

theorem isWordChar_period : isWordChar '.' = false := by decide

theorem matchCond_parts {a₁ a₂ : Char} {prev : Option Char} {c₁ c₂ : Char}
    (h : (bdry prev && c₁ == a₁ && c₂ == a₂) = true) :
    bdry prev = true ∧ c₁ = a₁ ∧ c₂ = a₂ := by
  simp only [Bool.and_eq_true, beq_iff_eq] at h
  exact ⟨h.1.1, h.1.2, h.2⟩

theorem insideWordOnly_cons (a₁ a₂ : Char) (prev : Option Char) (c₁ c₂ : Char)
    (rest : List Char) :
    insideWordOnly a₁ a₂ prev (c₁ :: c₂ :: rest)
      = ((!(c₁ == a₁ && c₂ == a₂) || prevWord prev || nextWord rest)
          && insideWordOnly a₁ a₂ (some c₁) (c₂ :: rest)) := rfl

theorem not_insideWordOnly_of_match (a₁ a₂ : Char) (prev : Option Char)
    (c₁ c₂ : Char) (rest : List Char) (hb : bdry prev = true) (h1 : c₁ = a₁)
    (h2 : c₂ = a₂) (hnw : nextWord rest = false) :
    insideWordOnly a₁ a₂ prev (c₁ :: c₂ :: rest) = false := by
  have hpw : prevWord prev = false := by
    rw [bdry_eq_not_prevWord] at hb; simpa using hb
  rw [insideWordOnly_cons, h1, h2]
  simp [hpw, hnw]

/-- If every occurrence of the abbreviation lies strictly inside a longer
word, the `re.sub` scanner never fires and returns its input unchanged. -/
theorem substAbbr_eq_self_of_insideWordOnly (a₁ a₂ : Char) (repl : List Char) :
    ∀ prev l, insideWordOnly a₁ a₂ prev l = true → substAbbr a₁ a₂ repl prev l = l := by
  intro prev l
  induction prev, l using substAbbr.induct a₁ a₂ repl with
  | case1 x => intro _; simp [substAbbr]
  | case2 x c => intro _; simp [substAbbr]
  | case3 prev c₁ c₂ hc =>
    intro h
    obtain ⟨hb, h1, h2⟩ := matchCond_parts hc
    rw [not_insideWordOnly_of_match a₁ a₂ prev c₁ c₂ [] hb h1 h2 rfl] at h
    exact absurd h (by simp)
  | case4 prev c₁ c₂ hc =>
    intro _
    show (if (bdry prev && c₁ == a₁ && c₂ == a₂) = true then repl else [c₁, c₂]) = _
    rw [if_neg hc]
  | case5 prev c₁ c₂ r₁ hc hpunct r₂ tail hw ih =>
    intro h
    obtain ⟨hb, h1, h2⟩ := matchCond_parts hc
    have hr : isWordChar r₁ = false := by
      rcases (by simpa using hpunct : r₁ = apos ∨ r₁ = '.') with h39 | hdot
      · rw [h39]; exact isWordChar_apos
      · rw [hdot]; exact isWordChar_period
    rw [not_insideWordOnly_of_match a₁ a₂ prev c₁ c₂ (r₁ :: r₂ :: tail) hb h1 h2
      (by simp [nextWord, hr])] at h
    exact absurd h (by simp)
  | case6 prev c₁ c₂ r₁ hc hpunct r₂ tail hw ih =>
    intro h
    obtain ⟨hb, h1, h2⟩ := matchCond_parts hc
    have hr : isWordChar r₁ = false := by
      rcases (by simpa using hpunct : r₁ = apos ∨ r₁ = '.') with h39 | hdot
      · rw [h39]; exact isWordChar_apos
      · rw [hdot]; exact isWordChar_period
    rw [not_insideWordOnly_of_match a₁ a₂ prev c₁ c₂ (r₁ :: r₂ :: tail) hb h1 h2
      (by simp [nextWord, hr])] at h
    exact absurd h (by simp)
  | case7 prev c₁ c₂ r₁ hc hpunct =>
    intro h
    obtain ⟨hb, h1, h2⟩ := matchCond_parts hc
    have hr : isWordChar r₁ = false := by
      rcases (by simpa using hpunct : r₁ = apos ∨ r₁ = '.') with h39 | hdot
      · rw [h39]; exact isWordChar_apos
      · rw [hdot]; exact isWordChar_period
    rw [not_insideWordOnly_of_match a₁ a₂ prev c₁ c₂ [r₁] hb h1 h2
      (by simp [nextWord, hr])] at h
    exact absurd h (by simp)
  | case8 prev c₁ c₂ r₁ rtail hc hpunct hw ih =>
    intro h
    rw [insideWordOnly_cons, Bool.and_eq_true] at h
    have htail := ih h.2
    show (if (bdry prev && c₁ == a₁ && c₂ == a₂) = true then _ else _) = _
    rw [if_pos hc]
    rw [if_neg (by simpa using hpunct)]
    rw [if_pos hw, htail]
  | case9 prev c₁ c₂ r₁ rtail hc hpunct hw ih =>
    intro h
    obtain ⟨hb, h1, h2⟩ := matchCond_parts hc
    have hr : isWordChar r₁ = false := by simpa using hw
    rw [not_insideWordOnly_of_match a₁ a₂ prev c₁ c₂ (r₁ :: rtail) hb h1 h2
      (by simp [nextWord, hr])] at h
    exact absurd h (by simp)
  | case10 prev c₁ c₂ r₁ rtail hc ih =>
    intro h
    rw [insideWordOnly_cons, Bool.and_eq_true] at h
    have htail := ih h.2
    show (if (bdry prev && c₁ == a₁ && c₂ == a₂) = true then _ else _) = _
    rw [if_neg hc, htail]

/-- **C6.** Abbreviation expansion in `normalize_street_name` is whole-word
only: if every occurrence of each short form (`שד`, `רח`, `כי`) in the input
lies strictly inside a longer word (its immediate neighbour on at least one
side is a word character, e.g. `כי` at the start of `כיכר` or `רח` inside
`רחובות`), then the abbreviation-expansion phase leaves the input unchanged:
no occurrence is expanded. -/
theorem C6_whole_word_expansion (l : List Char)
    (h1 : insideWordOnly 'ש' 'ד' none l = true)
    (h2 : insideWordOnly 'ר' 'ח' none l = true)
    (h3 : insideWordOnly 'כ' 'י' none l = true) :
    expandAbbrs l = l := by
  unfold expandAbbrs
  rw [substAbbr_eq_self_of_insideWordOnly 'ש' 'ד' sderotRepl none l h1,
    substAbbr_eq_self_of_insideWordOnly 'ר' 'ח' rehovRepl none l h2,
    substAbbr_eq_self_of_insideWordOnly 'כ' 'י' kikarRepl none l h3]

/-- Witness for C6 at a concrete input containing `כי` inside `כיכר` and
`רח` inside `רחובות`: the hypotheses hold and nothing is expanded. -/
theorem C6_whole_word_expansion_witness :
    (insideWordOnly 'ש' 'ד' none ("כיכר רחובות".toList) = true)
      ∧ (insideWordOnly 'ר' 'ח' none ("כיכר רחובות".toList) = true)
      ∧ (insideWordOnly 'כ' 'י' none ("כיכר רחובות".toList) = true)
      ∧ expandAbbrs ("כיכר רחובות".toList) = "כיכר רחובות".toList :=
  ⟨by decide, by decide, by decide,
    C6_whole_word_expansion _ (by decide) (by decide) (by decide)⟩


theorem isWordChar_shin : isWordChar 'ש' = true := by decide
theorem isWordChar_dalet : isWordChar 'ד' = true := by decide
theorem isWordChar_resh : isWordChar 'ר' = true := by decide
theorem isWordChar_vav : isWordChar 'ו' = true := by decide
theorem isWordChar_tav : isWordChar 'ת' = true := by decide
theorem isWordChar_het : isWordChar 'ח' = true := by decide
theorem isWordChar_bet : isWordChar 'ב' = true := by decide
theorem isWordChar_kaf : isWordChar 'כ' = true := by decide
theorem isWordChar_yod : isWordChar 'י' = true := by decide

theorem hWA_nil (a₁ a₂ : Char) (p : Option Char) : hasWordAbbr a₁ a₂ p [] = false := rfl

theorem hWA_single (a₁ a₂ : Char) (p : Option Char) (c : Char) :
    hasWordAbbr a₁ a₂ p [c] = false := rfl

theorem hWA_cons (a₁ a₂ : Char) (p : Option Char) (c₁ c₂ : Char) (rest : List Char) :
    hasWordAbbr a₁ a₂ p (c₁ :: c₂ :: rest)
      = ((bdry p && c₁ == a₁ && c₂ == a₂ && nextNonWord rest)
          || hasWordAbbr a₁ a₂ (some c₁) (c₂ :: rest)) := rfl

theorem hWA_tail {a₁ a₂ : Char} {p : Option Char} {c : Char} {t : List Char}
    (h : hasWordAbbr a₁ a₂ p (c :: t) = false) :
    hasWordAbbr a₁ a₂ (some c) t = false := by
  cases t with
  | nil => rfl
  | cons d rest =>
    rw [hWA_cons] at h
    exact (Bool.or_eq_false_iff.mp h).2

theorem hWA_le {a₁ a₂ : Char} {p q : Option Char} (l : List Char)
    (himp : bdry q = true → bdry p = true)
    (h : hasWordAbbr a₁ a₂ p l = false) : hasWordAbbr a₁ a₂ q l = false := by
  cases l with
  | nil => rfl
  | cons c₁ t =>
    cases t with
    | nil => rfl
    | cons c₂ rest =>
      rw [hWA_cons] at h ⊢
      rcases Bool.or_eq_false_iff.mp h with ⟨h1, h2⟩
      rw [h2, Bool.or_false]
      cases hq : bdry q with
      | false => simp
      | true => rw [himp hq] at h1; exact h1

/-- A scan starting from a non-word occurrence finds nothing iff neither its
head clause fires nor the rest.  Helper for building `= false` results. -/
theorem hWA_cons_false {a₁ a₂ : Char} (p : Option Char) (c₁ : Char) (X : List Char)
    (hX : hasWordAbbr a₁ a₂ (some c₁) X = false)
    (hcl : ∀ x rest, X = x :: rest →
      (bdry p && c₁ == a₁ && x == a₂ && nextNonWord rest) = false) :
    hasWordAbbr a₁ a₂ p (c₁ :: X) = false := by
  cases X with
  | nil => rfl
  | cons x rest =>
    rw [hWA_cons, Bool.or_eq_false_iff]
    exact ⟨hcl x rest rfl, hX⟩

/-- A clean scan implies every occurrence lies inside a longer word. -/
theorem insideWordOnly_of_not_hWA (a₁ a₂ : Char) :
    ∀ p l, hasWordAbbr a₁ a₂ p l = false → insideWordOnly a₁ a₂ p l = true := by
  intro p l
  induction p, l using hasWordAbbr.induct a₁ a₂ with
  | case1 p => intro _; rfl
  | case2 p c => intro _; rfl
  | case3 p c₁ c₂ rest ih =>
    intro h
    rw [hWA_cons] at h
    rcases Bool.or_eq_false_iff.mp h with ⟨h1, h2⟩
    rw [insideWordOnly_cons, Bool.and_eq_true]
    refine ⟨?_, ih h2⟩
    cases hpw : prevWord p with
    | true => simp
    | false =>
      have hb : bdry p = true := by rw [bdry_eq_not_prevWord, hpw]; rfl
      rw [hb] at h1
      cases hp : (c₁ == a₁ && c₂ == a₂) with
      | false => simp [hp]
      | true =>
        have : nextNonWord rest = false := by
          rcases (by simpa using hp : c₁ = a₁ ∧ c₂ = a₂) with ⟨hp1, hp2⟩
          simpa [hp1, hp2] using h1
        have hnw : nextWord rest = true := by
          cases rest with
          | nil => simp [nextNonWord] at this
          | cons r rr => simp [nextNonWord] at this; simp [nextWord, this]
        simp [hnw]

/-- With no boundary on the left, a substitution step just copies the head. -/
theorem substAbbr_cons_of_not_bdry (a₁ a₂ : Char) (repl : List Char)
    {p : Option Char} (hp : bdry p = false) (c : Char) (t : List Char) :
    substAbbr a₁ a₂ repl p (c :: t) = c :: substAbbr a₁ a₂ repl (some c) t := by
  match t with
  | [] => rfl
  | [d] =>
    show (if (bdry p && c == a₁ && d == a₂) = true then _ else _) = _
    rw [hp]
    simp [substAbbr]
  | d :: e :: t' =>
    show (if (bdry p && c == a₁ && d == a₂) = true then _ else _) = _
    rw [hp]
    simp

theorem hWA_sderot_append (p : Option Char) (t : List Char) :
    hasWordAbbr 'ש' 'ד' p (sderotRepl ++ t) = hasWordAbbr 'ש' 'ד' (some 'ת') t := by
  cases t with
  | nil =>
    simp [sderotRepl, hasWordAbbr, nextNonWord, bdry,
      isWordChar_shin, isWordChar_dalet, isWordChar_resh, isWordChar_vav, isWordChar_tav]
  | cons d t' =>
    cases t' with
    | nil =>
      simp [sderotRepl, hasWordAbbr, hWA_cons, nextNonWord, bdry,
        isWordChar_shin, isWordChar_dalet, isWordChar_resh, isWordChar_vav, isWordChar_tav]
    | cons e t'' =>
      simp only [sderotRepl, List.cons_append, List.nil_append, hWA_cons, nextNonWord, bdry,
        isWordChar_shin, isWordChar_dalet, isWordChar_resh, isWordChar_vav, isWordChar_tav]
      simp


theorem hWA_rehov_append (p : Option Char) (t : List Char) :
    hasWordAbbr 'ר' 'ח' p (rehovRepl ++ t) = hasWordAbbr 'ר' 'ח' (some 'ב') t := by
  cases t with
  | nil =>
    simp [rehovRepl, hasWordAbbr, nextNonWord, bdry,
      isWordChar_resh, isWordChar_het, isWordChar_vav, isWordChar_bet]
  | cons d t' =>
    cases t' with
    | nil =>
      simp [rehovRepl, hasWordAbbr, hWA_cons, nextNonWord, bdry,
        isWordChar_resh, isWordChar_het, isWordChar_vav, isWordChar_bet]
    | cons e t'' =>
      simp only [rehovRepl, List.cons_append, List.nil_append, hWA_cons, nextNonWord, bdry,
        isWordChar_resh, isWordChar_het, isWordChar_vav, isWordChar_bet]
      simp

theorem hWA_kikar_append (p : Option Char) (t : List Char) :
    hasWordAbbr 'כ' 'י' p (kikarRepl ++ t) = hasWordAbbr 'כ' 'י' (some 'ר') t := by
  cases t with
  | nil =>
    simp [kikarRepl, hasWordAbbr, nextNonWord, bdry,
      isWordChar_kaf, isWordChar_yod, isWordChar_resh]
  | cons d t' =>
    cases t' with
    | nil =>
      simp [kikarRepl, hasWordAbbr, hWA_cons, nextNonWord, bdry,
        isWordChar_kaf, isWordChar_yod, isWordChar_resh]
    | cons e t'' =>
      simp only [kikarRepl, List.cons_append, List.nil_append, hWA_cons, nextNonWord, bdry,
        isWordChar_kaf, isWordChar_yod, isWordChar_resh]
      simp

theorem hWA_shin_rehov_append (p : Option Char) (t : List Char) :
    hasWordAbbr 'ש' 'ד' p (rehovRepl ++ t) = hasWordAbbr 'ש' 'ד' (some 'ב') t := by
  cases t with
  | nil =>
    simp [rehovRepl, hasWordAbbr, nextNonWord, bdry,
      isWordChar_resh, isWordChar_het, isWordChar_vav, isWordChar_bet]
  | cons d t' =>
    cases t' with
    | nil =>
      simp [rehovRepl, hasWordAbbr, hWA_cons, nextNonWord, bdry,
        isWordChar_resh, isWordChar_het, isWordChar_vav, isWordChar_bet]
    | cons e t'' =>
      simp only [rehovRepl, List.cons_append, List.nil_append, hWA_cons, nextNonWord, bdry,
        isWordChar_resh, isWordChar_het, isWordChar_vav, isWordChar_bet]
      simp

theorem hWA_shin_kikar_append (p : Option Char) (t : List Char) :
    hasWordAbbr 'ש' 'ד' p (kikarRepl ++ t) = hasWordAbbr 'ש' 'ד' (some 'ר') t := by
  cases t with
  | nil =>
    simp [kikarRepl, hasWordAbbr, nextNonWord, bdry,
      isWordChar_kaf, isWordChar_yod, isWordChar_resh]
  | cons d t' =>
    cases t' with
    | nil =>
      simp [kikarRepl, hasWordAbbr, hWA_cons, nextNonWord, bdry,
        isWordChar_kaf, isWordChar_yod, isWordChar_resh]
    | cons e t'' =>
      simp only [kikarRepl, List.cons_append, List.nil_append, hWA_cons, nextNonWord, bdry,
        isWordChar_kaf, isWordChar_yod, isWordChar_resh]
      simp

theorem hWA_resh_kikar_append (p : Option Char) (t : List Char) :
    hasWordAbbr 'ר' 'ח' p (kikarRepl ++ t) = hasWordAbbr 'ר' 'ח' (some 'ר') t := by
  cases t with
  | nil =>
    simp [kikarRepl, hasWordAbbr, nextNonWord, bdry,
      isWordChar_kaf, isWordChar_yod, isWordChar_resh]
  | cons d t' =>
    cases t' with
    | nil =>
      simp [kikarRepl, hasWordAbbr, hWA_cons, nextNonWord, bdry,
        isWordChar_kaf, isWordChar_yod, isWordChar_resh]
    | cons e t'' =>
      simp only [kikarRepl, List.cons_append, List.nil_append, hWA_cons, nextNonWord, bdry,
        isWordChar_kaf, isWordChar_yod, isWordChar_resh]
      simp


theorem substAbbr_two_pos {a₁ a₂ : Char} (repl : List Char) {prev : Option Char}
    {c₁ c₂ : Char} (hc : (bdry prev && c₁ == a₁ && c₂ == a₂) = true) :
    substAbbr a₁ a₂ repl prev [c₁, c₂] = repl := by
  show (if (bdry prev && c₁ == a₁ && c₂ == a₂) = true then repl else [c₁, c₂]) = repl
  rw [if_pos hc]

theorem substAbbr_two_neg {a₁ a₂ : Char} (repl : List Char) {prev : Option Char}
    {c₁ c₂ : Char} (hc : ¬(bdry prev && c₁ == a₁ && c₂ == a₂) = true) :
    substAbbr a₁ a₂ repl prev [c₁, c₂] = [c₁, c₂] := by
  show (if (bdry prev && c₁ == a₁ && c₂ == a₂) = true then repl else [c₁, c₂]) = _
  rw [if_neg hc]

theorem substAbbr_greedy {a₁ a₂ : Char} (repl : List Char) {prev : Option Char}
    {c₁ c₂ r₁ r₂ : Char} {tl : List Char}
    (hc : (bdry prev && c₁ == a₁ && c₂ == a₂) = true)
    (hpunct : (r₁ == apos || r₁ == '.') = true) (hw : isWordChar r₂ = true) :
    substAbbr a₁ a₂ repl prev (c₁ :: c₂ :: r₁ :: r₂ :: tl)
      = repl ++ substAbbr a₁ a₂ repl (some r₁) (r₂ :: tl) := by
  show (if (bdry prev && c₁ == a₁ && c₂ == a₂) = true then _ else _) = _
  rw [if_pos hc, if_pos hpunct]
  show (if isWordChar r₂ = true then _ else _) = _
  rw [if_pos hw]

theorem substAbbr_fallback {a₁ a₂ : Char} (repl : List Char) {prev : Option Char}
    {c₁ c₂ r₁ r₂ : Char} {tl : List Char}
    (hc : (bdry prev && c₁ == a₁ && c₂ == a₂) = true)
    (hpunct : (r₁ == apos || r₁ == '.') = true) (hw : ¬isWordChar r₂ = true) :
    substAbbr a₁ a₂ repl prev (c₁ :: c₂ :: r₁ :: r₂ :: tl)
      = repl ++ substAbbr a₁ a₂ repl (some c₂) (r₁ :: r₂ :: tl) := by
  show (if (bdry prev && c₁ == a₁ && c₂ == a₂) = true then _ else _) = _
  rw [if_pos hc, if_pos hpunct]
  show (if isWordChar r₂ = true then _ else _) = _
  rw [if_neg hw]

theorem substAbbr_three {a₁ a₂ : Char} (repl : List Char) {prev : Option Char}
    {c₁ c₂ r₁ : Char}
    (hc : (bdry prev && c₁ == a₁ && c₂ == a₂) = true)
    (hpunct : (r₁ == apos || r₁ == '.') = true) :
    substAbbr a₁ a₂ repl prev [c₁, c₂, r₁] = repl ++ [r₁] := by
  show (if (bdry prev && c₁ == a₁ && c₂ == a₂) = true then _ else _) = _
  rw [if_pos hc, if_pos hpunct]

theorem substAbbr_advance {a₁ a₂ : Char} (repl : List Char) {prev : Option Char}
    {c₁ c₂ r₁ : Char} {rtail : List Char}
    (hc : (bdry prev && c₁ == a₁ && c₂ == a₂) = true)
    (hpunct : ¬(r₁ == apos || r₁ == '.') = true) (hw : isWordChar r₁ = true) :
    substAbbr a₁ a₂ repl prev (c₁ :: c₂ :: r₁ :: rtail)
      = c₁ :: substAbbr a₁ a₂ repl (some c₁) (c₂ :: r₁ :: rtail) := by
  show (if (bdry prev && c₁ == a₁ && c₂ == a₂) = true then _ else _) = _
  rw [if_pos hc, if_neg hpunct, if_pos hw]

theorem substAbbr_alone {a₁ a₂ : Char} (repl : List Char) {prev : Option Char}
    {c₁ c₂ r₁ : Char} {rtail : List Char}
    (hc : (bdry prev && c₁ == a₁ && c₂ == a₂) = true)
    (hpunct : ¬(r₁ == apos || r₁ == '.') = true) (hw : ¬isWordChar r₁ = true) :
    substAbbr a₁ a₂ repl prev (c₁ :: c₂ :: r₁ :: rtail)
      = repl ++ substAbbr a₁ a₂ repl (some c₂) (r₁ :: rtail) := by
  show (if (bdry prev && c₁ == a₁ && c₂ == a₂) = true then _ else _) = _
  rw [if_pos hc, if_neg hpunct, if_neg hw]

theorem substAbbr_nomatch {a₁ a₂ : Char} (repl : List Char) {prev : Option Char}
    {c₁ c₂ r₁ : Char} {rtail : List Char}
    (hc : ¬(bdry prev && c₁ == a₁ && c₂ == a₂) = true) :
    substAbbr a₁ a₂ repl prev (c₁ :: c₂ :: r₁ :: rtail)
      = c₁ :: substAbbr a₁ a₂ repl (some c₁) (c₂ :: r₁ :: rtail) := by
  show (if (bdry prev && c₁ == a₁ && c₂ == a₂) = true then _ else _) = _
  rw [if_neg hc]


theorem clause_false_of_contra {a₁ a₂ : Char} {pscan prev : Option Char} {c₁ c₂ : Char}
    (himp : bdry pscan = true → bdry prev = true)
    (hc : ¬(bdry prev && c₁ == a₁ && c₂ == a₂) = true) (nn : Bool) :
    (bdry pscan && c₁ == a₁ && c₂ == a₂ && nn) = false := by
  cases hq : bdry pscan with
  | false => simp
  | true =>
    have hp := himp hq
    cases h1 : c₁ == a₁ with
    | false => simp [h1]
    | true =>
      cases h2 : c₂ == a₂ with
      | false => simp [h2]
      | true => exact absurd (by rw [hp, h1, h2]; rfl) hc

theorem bdry_some_eq_false_of_word {c : Char} (h : isWordChar c = true) :
    bdry (some c) = false := by
  show (!isWordChar c) = false
  rw [h]
  rfl

/-- The output of one substitution pass contains no bare whole-word
occurrence of its own abbreviation pattern: every such occurrence of the
input was either replaced or sat next to a word character, and the
replacement text exposes none. -/
theorem hWA_substAbbr_self (a₁ a₂ : Char) (repl : List Char) (rl : Char)
    (hw₁ : isWordChar a₁ = true) (hw₂ : isWordChar a₂ = true)
    (hrl : isWordChar rl = true)
    (hthrough : ∀ p t, hasWordAbbr a₁ a₂ p (repl ++ t) = hasWordAbbr a₁ a₂ (some rl) t) :
    ∀ prev l pscan, (bdry pscan = true → bdry prev = true) →
      hasWordAbbr a₁ a₂ pscan (substAbbr a₁ a₂ repl prev l) = false := by
  have himprl : ∀ p : Option Char, bdry (some rl) = true → bdry p = true := by
    intro p h
    rw [bdry_some_eq_false_of_word hrl] at h
    exact absurd h (by simp)
  intro prev l
  induction prev, l using substAbbr.induct a₁ a₂ repl with
  | case1 p => intro pscan _; rw [show substAbbr a₁ a₂ repl p [] = [] from rfl]; rfl
  | case2 p c => intro pscan _; rw [show substAbbr a₁ a₂ repl p [c] = [c] from rfl]; rfl
  | case3 prev c₁ c₂ hc =>
    intro pscan _
    rw [substAbbr_two_pos repl hc]
    have h := hthrough pscan []
    rw [List.append_nil] at h
    rw [h]
    rfl
  | case4 prev c₁ c₂ hc =>
    intro pscan himp
    rw [substAbbr_two_neg repl hc]
    refine hWA_cons_false pscan c₁ [c₂] (hWA_single ..) ?_
    intro x rest he
    injection he with he1 he2
    subst he1; subst he2
    exact clause_false_of_contra himp hc _
  | case5 prev c₁ c₂ r₁ hc hpunct r₂ tail hw ih =>
    intro pscan _
    rw [substAbbr_greedy repl hc hpunct hw, hthrough]
    exact ih (some rl) (himprl _)
  | case6 prev c₁ c₂ r₁ hc hpunct r₂ tail hw ih =>
    intro pscan _
    rw [substAbbr_fallback repl hc hpunct hw, hthrough]
    exact ih (some rl) (himprl _)
  | case7 prev c₁ c₂ r₁ hc hpunct =>
    intro pscan _
    rw [substAbbr_three repl hc hpunct, hthrough]
    rfl
  | case8 prev c₁ c₂ r₁ rtail hc hpunct hw ih =>
    intro pscan himp
    rw [substAbbr_advance repl hc hpunct hw]
    obtain ⟨hb, h1, h2⟩ := matchCond_parts hc
    have hbc₁ : bdry (some c₁) = false := by rw [h1]; exact bdry_some_eq_false_of_word hw₁
    have hbc₂ : bdry (some c₂) = false := by rw [h2]; exact bdry_some_eq_false_of_word hw₂
    refine hWA_cons_false pscan c₁ _ (ih (some c₁) (fun h => h)) ?_
    intro x rest he
    rw [substAbbr_cons_of_not_bdry a₁ a₂ repl hbc₁ c₂ (r₁ :: rtail)] at he
    injection he with he1 he2
    rw [substAbbr_cons_of_not_bdry a₁ a₂ repl hbc₂ r₁ rtail] at he2
    subst he1
    rw [← he2]
    simp [nextNonWord, hw]
  | case9 prev c₁ c₂ r₁ rtail hc hpunct hw ih =>
    intro pscan _
    rw [substAbbr_alone repl hc hpunct hw, hthrough]
    exact ih (some rl) (himprl _)
  | case10 prev c₁ c₂ r₁ rtail hc ih =>
    intro pscan himp
    rw [substAbbr_nomatch repl hc]
    refine hWA_cons_false pscan c₁ _ (ih (some c₁) (fun h => h)) ?_
    intro x rest he
    cases hbc₁ : bdry (some c₁) with
    | true =>
      have hne : (c₁ == a₁) = false := by
        cases he1 : c₁ == a₁ with
        | false => rfl
        | true =>
          exfalso
          rw [eq_of_beq he1, bdry_some_eq_false_of_word hw₁] at hbc₁
          exact Bool.false_ne_true hbc₁
      simp [hne]
    | false =>
      rw [substAbbr_cons_of_not_bdry a₁ a₂ repl hbc₁ c₂ (r₁ :: rtail)] at he
      injection he with he1 he2
      subst he1
      exact clause_false_of_contra himp hc _


/-- A substitution pass for one abbreviation pattern does not create bare
whole-word occurrences of another pattern that the input did not have. -/
theorem hWA_substAbbr_other (a₁ a₂ b₁ b₂ : Char) (repl : List Char) (rl : Char)
    (hw₁ : isWordChar a₁ = true) (hw₂ : isWordChar a₂ = true)
    (hrl : isWordChar rl = true)
    (hthrough : ∀ p t, hasWordAbbr a₁ a₂ p (repl ++ t) = hasWordAbbr a₁ a₂ (some rl) t) :
    ∀ prev l pscan, (bdry pscan = true → bdry prev = true) →
      hasWordAbbr a₁ a₂ prev l = false →
      hasWordAbbr a₁ a₂ pscan (substAbbr b₁ b₂ repl prev l) = false := by
  have himprl : ∀ p : Option Char, bdry (some rl) = true → bdry p = true := by
    intro p h
    rw [bdry_some_eq_false_of_word hrl] at h
    exact absurd h (by simp)
  intro prev l
  induction prev, l using substAbbr.induct b₁ b₂ repl with
  | case1 p => intro pscan _ _; rw [show substAbbr b₁ b₂ repl p [] = [] from rfl]; rfl
  | case2 p c => intro pscan _ _; rw [show substAbbr b₁ b₂ repl p [c] = [c] from rfl]; rfl
  | case3 prev c₁ c₂ hc =>
    intro pscan _ _
    rw [substAbbr_two_pos repl hc]
    have h := hthrough pscan []
    rw [List.append_nil] at h
    rw [h]
    rfl
  | case4 prev c₁ c₂ hc =>
    intro pscan himp h
    rw [substAbbr_two_neg repl hc]
    exact hWA_le _ himp h
  | case5 prev c₁ c₂ r₁ hc hpunct r₂ tail hw ih =>
    intro pscan _ h
    rw [substAbbr_greedy repl hc hpunct hw, hthrough]
    exact ih (some rl) (himprl _) (hWA_tail (hWA_tail (hWA_tail h)))
  | case6 prev c₁ c₂ r₁ hc hpunct r₂ tail hw ih =>
    intro pscan _ h
    rw [substAbbr_fallback repl hc hpunct hw, hthrough]
    exact ih (some rl) (himprl _) (hWA_tail (hWA_tail h))
  | case7 prev c₁ c₂ r₁ hc hpunct =>
    intro pscan _ _
    rw [substAbbr_three repl hc hpunct, hthrough]
    rfl
  | case8 prev c₁ c₂ r₁ rtail hc hpunct hw ih =>
    intro pscan himp h
    rw [substAbbr_advance repl hc hpunct hw]
    refine hWA_cons_false pscan c₁ _ (ih (some c₁) (fun hx => hx) (hWA_tail h)) ?_
    intro x rest he
    cases hbc₁ : bdry (some c₁) with
    | true =>
      have hne : (c₁ == a₁) = false := by
        cases he1 : c₁ == a₁ with
        | false => rfl
        | true =>
          exfalso
          rw [eq_of_beq he1, bdry_some_eq_false_of_word hw₁] at hbc₁
          exact Bool.false_ne_true hbc₁
      simp [hne]
    | false =>
      rw [substAbbr_cons_of_not_bdry b₁ b₂ repl hbc₁ c₂ (r₁ :: rtail)] at he
      injection he with he1 he2
      subst he1
      cases he2c : c₂ == a₂ with
      | false => simp [he2c]
      | true =>
        have hbc₂ : bdry (some c₂) = false := by
          rw [eq_of_beq he2c]; exact bdry_some_eq_false_of_word hw₂
        rw [substAbbr_cons_of_not_bdry b₁ b₂ repl hbc₂ r₁ rtail] at he2
        rw [← he2]
        simp [nextNonWord, hw]
  | case9 prev c₁ c₂ r₁ rtail hc hpunct hw ih =>
    intro pscan _ h
    rw [substAbbr_alone repl hc hpunct hw, hthrough]
    exact ih (some rl) (himprl _) (hWA_tail (hWA_tail h))
  | case10 prev c₁ c₂ r₁ rtail hc ih =>
    intro pscan himp h
    rw [substAbbr_nomatch repl hc]
    refine hWA_cons_false pscan c₁ _ (ih (some c₁) (fun hx => hx) (hWA_tail h)) ?_
    intro x rest he
    cases hbc₁ : bdry (some c₁) with
    | true =>
      have hne : (c₁ == a₁) = false := by
        cases he1 : c₁ == a₁ with
        | false => rfl
        | true =>
          exfalso
          rw [eq_of_beq he1, bdry_some_eq_false_of_word hw₁] at hbc₁
          exact Bool.false_ne_true hbc₁
      simp [hne]
    | false =>
      rw [substAbbr_cons_of_not_bdry b₁ b₂ repl hbc₁ c₂ (r₁ :: rtail)] at he
      injection he with he1 he2
      subst he1
      cases hq : bdry pscan with
      | false => simp
      | true =>
        cases he1c : c₁ == a₁ with
        | false => simp [he1c]
        | true =>
          cases he2c : c₂ == a₂ with
          | false => simp [he2c]
          | true =>
            have hprev := himp hq
            rw [hWA_cons] at h
            have h1 := (Bool.or_eq_false_iff.mp h).1
            rw [hprev, he1c, he2c] at h1
            have hnn : nextNonWord (r₁ :: rtail) = false := by simpa using h1
            have hwr : isWordChar r₁ = true := by
              simp [nextNonWord] at hnn
              simp [hnn]
            have hbc₂ : bdry (some c₂) = false := by
              rw [eq_of_beq he2c]; exact bdry_some_eq_false_of_word hw₂
            rw [substAbbr_cons_of_not_bdry b₁ b₂ repl hbc₂ r₁ rtail] at he2
            rw [← he2]
            simp [nextNonWord, hwr]


theorem not_wordChar_of_sepPunct {c : Char} (h : isSepPunct c = true) :
    isWordChar c = false := by
  rcases (by simpa [isSepPunct, or_assoc] using h : c = '.' ∨ c = ',' ∨ c = '-') with h | h | h <;>
    rw [h] <;> decide

theorem not_wordChar_of_ws {c : Char} (h : isWs c = true) : isWordChar c = false := by
  rcases (by simpa [isWs, Char.isWhitespace, or_assoc] using h :
    c = ' ' ∨ c = '\t' ∨ c = '\r' ∨ c = '\n') with h | h | h | h <;> rw [h] <;> decide

theorem not_ws_of_wordChar {c : Char} (h : isWordChar c = true) : isWs c = false := by
  cases hw : isWs c with
  | false => rfl
  | true => rw [not_wordChar_of_ws hw] at h; exact absurd h (by simp)

theorem isWordChar_space : isWordChar ' ' = false := by decide

/-- The punctuation map preserves the word/non-word classification. -/
theorem wordChar_punctMap (c : Char) :
    isWordChar (if isSepPunct c then ' ' else c) = isWordChar c := by
  cases hp : isSepPunct c with
  | false => rfl
  | true => rw [if_pos rfl, isWordChar_space, not_wordChar_of_sepPunct hp]

theorem beq_punctMap {a c : Char} (ha : isWordChar a = true) :
    ((if isSepPunct c then ' ' else c) == a) = (c == a) := by
  cases hp : isSepPunct c with
  | false => rfl
  | true =>
    rw [if_pos rfl]
    cases h1 : ' ' == a with
    | false =>
      cases h2 : c == a with
      | false => rfl
      | true =>
        exfalso
        have hcw : isWordChar c = true := by rw [eq_of_beq h2]; exact ha
        rw [not_wordChar_of_sepPunct hp] at hcw
        exact absurd hcw (by simp)
    | true =>
      exfalso
      rw [← eq_of_beq h1] at ha
      rw [isWordChar_space] at ha
      exact absurd ha (by simp)

theorem nextNonWord_punctToSpace (t : List Char) :
    nextNonWord (punctToSpace t) = nextNonWord t := by
  cases t with
  | nil => rfl
  | cons d t' =>
    show (!isWordChar (if isSepPunct d then ' ' else d)) = _
    rw [wordChar_punctMap]
    rfl

/-- `punctToSpace` does not create bare whole-word abbreviation occurrences. -/
theorem hWA_punctToSpace {a₁ a₂ : Char} (hw₁ : isWordChar a₁ = true)
    (hw₂ : isWordChar a₂ = true) :
    ∀ l prev pscan, bdry pscan = bdry prev → hasWordAbbr a₁ a₂ prev l = false →
      hasWordAbbr a₁ a₂ pscan (punctToSpace l) = false := by
  intro l
  induction l with
  | nil => intro prev pscan _ _; rfl
  | cons c t ih =>
    intro prev pscan hbe h
    show hasWordAbbr a₁ a₂ pscan ((if isSepPunct c then ' ' else c) :: punctToSpace t) = false
    refine hWA_cons_false pscan _ _ ?_ ?_
    · refine ih (some c) (some (if isSepPunct c then ' ' else c)) ?_ (hWA_tail h)
      show (!isWordChar _) = (!isWordChar _)
      rw [wordChar_punctMap]
    · intro x rest he
      cases t with
      | nil => simp [punctToSpace] at he
      | cons d t' =>
        have hx : x = (if isSepPunct d then ' ' else d) ∧ rest = punctToSpace t' := by
          constructor
          · exact (by injection he with h1 _; exact h1.symm)
          · exact (by injection he with _ h2; exact h2.symm)
        obtain ⟨hx1, hx2⟩ := hx
        subst hx1; subst hx2
        rw [hWA_cons] at h
        have h1 := (Bool.or_eq_false_iff.mp h).1
        rw [beq_punctMap hw₁, beq_punctMap hw₂, nextNonWord_punctToSpace, hbe]
        exact h1


theorem collapseWsAux_ws_true {c : Char} (t : List Char) (h : isWs c = true) :
    collapseWsAux true (c :: t) = collapseWsAux true t := by
  simp [collapseWsAux, h]

theorem collapseWsAux_ws_false {c : Char} (t : List Char) (h : isWs c = true) :
    collapseWsAux false (c :: t) = ' ' :: collapseWsAux true t := by
  simp [collapseWsAux, h]

theorem collapseWsAux_nws {c : Char} (b : Bool) (t : List Char) (h : isWs c = false) :
    collapseWsAux b (c :: t) = c :: collapseWsAux false t := by
  cases b <;> simp [collapseWsAux, h]

theorem space_beq_false_of_word {a : Char} (ha : isWordChar a = true) :
    (' ' == a) = false := by
  cases h1 : ' ' == a with
  | false => rfl
  | true =>
    exfalso
    rw [← eq_of_beq h1] at ha
    exact absurd ha (by decide)

/-- Collapsing whitespace runs does not create bare whole-word
abbreviation occurrences. -/
theorem hWA_collapseWsAux {a₁ a₂ : Char} (hw₁ : isWordChar a₁ = true)
    (hw₂ : isWordChar a₂ = true) :
    ∀ l b prev pscan, (bdry pscan = true → bdry prev = true) →
      hasWordAbbr a₁ a₂ prev l = false →
      hasWordAbbr a₁ a₂ pscan (collapseWsAux b l) = false := by
  intro l
  induction l with
  | nil => intro b prev pscan _ _; cases b <;> rfl
  | cons c t ih =>
    intro b prev pscan himp h
    have htail := hWA_tail h
    cases hws : isWs c with
    | true =>
      have hbc : bdry (some c) = true := by
        show (!isWordChar c) = true
        rw [not_wordChar_of_ws hws]
        rfl
      cases b with
      | true =>
        rw [collapseWsAux_ws_true t hws]
        exact ih true (some c) pscan (fun _ => hbc) htail
      | false =>
        rw [collapseWsAux_ws_false t hws]
        refine hWA_cons_false pscan _ _ (ih true (some c) (some ' ') (fun _ => hbc) htail) ?_
        intro x rest he
        simp [space_beq_false_of_word hw₁]
    | false =>
      rw [collapseWsAux_nws b t hws]
      refine hWA_cons_false pscan _ _ (ih false (some c) (some c) (fun hh => hh) htail) ?_
      intro x rest he
      cases hq : bdry pscan with
      | false => simp
      | true =>
        cases h1 : c == a₁ with
        | false => simp [h1]
        | true =>
          cases t with
          | nil => simp [collapseWsAux] at he
          | cons d t' =>
            cases hwd : isWs d with
            | true =>
              rw [collapseWsAux_ws_false t' hwd] at he
              injection he with he1 he2
              rw [← he1]
              simp [space_beq_false_of_word hw₂]
            | false =>
              rw [collapseWsAux_nws false t' hwd] at he
              injection he with he1 he2
              subst he1
              subst he2
              rw [hWA_cons] at h
              have hcl := (Bool.or_eq_false_iff.mp h).1
              rw [himp hq, h1] at hcl
              cases h2 : d == a₂ with
              | false => simp [h2]
              | true =>
                rw [h2] at hcl
                have hnn : nextNonWord t' = false := by simpa using hcl
                cases t' with
                | nil => simp [nextNonWord] at hnn
                | cons w t'' =>
                  have hww : isWordChar w = true := by simpa [nextNonWord] using hnn
                  rw [collapseWsAux_nws false t'' (not_ws_of_wordChar hww)]
                  simp [nextNonWord, hww]

theorem trimRight_eq (c : Char) (t : List Char) :
    trimRight (c :: t) = [] ∨ trimRight (c :: t) = c :: trimRight t := by
  cases htr : trimRight t with
  | nil =>
    cases hws : isWs c with
    | true => left; simp [trimRight, htr, hws]
    | false => right; simp [trimRight, htr, hws]
  | cons x xs => right; simp [trimRight, htr]

theorem trimRight_ne_nil {c : Char} (t : List Char) (h : isWs c = false) :
    trimRight (c :: t) ≠ [] := by
  cases htr : trimRight t with
  | nil => simp [trimRight, htr, h]
  | cons x xs => simp [trimRight, htr]

/-- Right-trimming does not create bare whole-word abbreviation
occurrences. -/
theorem hWA_trimRight {a₁ a₂ : Char} :
    ∀ l prev, hasWordAbbr a₁ a₂ prev l = false →
      hasWordAbbr a₁ a₂ prev (trimRight l) = false := by
  intro l
  induction l with
  | nil => intro prev _; rfl
  | cons c t ih =>
    intro prev h
    rcases trimRight_eq c t with he | he
    · rw [he]; rfl
    · rw [he]
      refine hWA_cons_false prev c _ (ih (some c) (hWA_tail h)) ?_
      intro x rest hx
      cases t with
      | nil => simp [trimRight] at hx
      | cons d t' =>
        rcases trimRight_eq d t' with he2 | he2
        · rw [he2] at hx; exact absurd hx (by simp)
        · rw [he2] at hx
          injection hx with hx1 hx2
          subst hx1
          subst hx2
          cases hq : bdry prev with
          | false => simp
          | true =>
            cases h1 : c == a₁ with
            | false => simp [h1]
            | true =>
              cases h2 : d == a₂ with
              | false => simp [h2]
              | true =>
                rw [hWA_cons] at h
                have hcl := (Bool.or_eq_false_iff.mp h).1
                rw [hq, h1, h2] at hcl
                have hnn : nextNonWord t' = false := by simpa using hcl
                cases t' with
                | nil => simp [nextNonWord] at hnn
                | cons w t'' =>
                  have hww : isWordChar w = true := by simpa [nextNonWord] using hnn
                  rcases trimRight_eq w t'' with he3 | he3
                  · exact absurd he3 (trimRight_ne_nil t'' (not_ws_of_wordChar hww))
                  · rw [he3]
                    simp [nextNonWord, hww]

/-- Left-trimming does not create bare whole-word abbreviation
occurrences. -/
theorem hWA_dropWhile_ws {a₁ a₂ : Char} :
    ∀ l, hasWordAbbr a₁ a₂ none l = false →
      hasWordAbbr a₁ a₂ none (l.dropWhile isWs) = false := by
  intro l
  induction l with
  | nil => intro _; exact rfl
  | cons c t ih =>
    intro h
    cases hws : isWs c with
    | false => rw [List.dropWhile_cons_of_neg (by simp [hws])]; exact h
    | true =>
      rw [List.dropWhile_cons_of_pos (by simp [hws])]
      refine ih (hWA_le t (fun _ => ?_) (hWA_tail h))
      show (!isWordChar c) = true
      rw [not_wordChar_of_ws hws]
      rfl

theorem hWA_trimWs {a₁ a₂ : Char} (l : List Char)
    (h : hasWordAbbr a₁ a₂ none l = false) :
    hasWordAbbr a₁ a₂ none (trimWs l) = false :=
  hWA_trimRight _ none (hWA_dropWhile_ws l h)


theorem all_dropWhile (P q : Char → Bool) :
    ∀ l : List Char, l.all P = true → (l.dropWhile q).all P = true := by
  intro l
  induction l with
  | nil => intro _; rfl
  | cons c t ih =>
    intro h
    rw [List.all_cons, Bool.and_eq_true] at h
    cases hq : q c with
    | false => rw [List.dropWhile_cons_of_neg (by simp [hq])]; rw [List.all_cons]; simp [h.1, h.2]
    | true => rw [List.dropWhile_cons_of_pos (by simp [hq])]; exact ih h.2

theorem all_trimRight (P : Char → Bool) :
    ∀ l : List Char, l.all P = true → (trimRight l).all P = true := by
  intro l
  induction l with
  | nil => intro _; rfl
  | cons c t ih =>
    intro h
    rw [List.all_cons, Bool.and_eq_true] at h
    rcases trimRight_eq c t with he | he
    · rw [he]; rfl
    · rw [he, List.all_cons]
      simp [h.1, ih h.2]

theorem all_trimWs (P : Char → Bool) (l : List Char) (h : l.all P = true) :
    (trimWs l).all P = true :=
  all_trimRight P _ (all_dropWhile P isWs l h)

theorem all_substAbbr (P : Char → Bool) (a₁ a₂ : Char) (repl : List Char)
    (hrepl : repl.all P = true) :
    ∀ prev l, l.all P = true → (substAbbr a₁ a₂ repl prev l).all P = true := by
  intro prev l
  induction prev, l using substAbbr.induct a₁ a₂ repl with
  | case1 p => intro _; rfl
  | case2 p c => intro h; exact h
  | case3 prev c₁ c₂ hc => intro _; rw [substAbbr_two_pos repl hc]; exact hrepl
  | case4 prev c₁ c₂ hc => intro h; rw [substAbbr_two_neg repl hc]; exact h
  | case5 prev c₁ c₂ r₁ hc hpunct r₂ tail hw ih =>
    intro h
    rw [substAbbr_greedy repl hc hpunct hw, List.all_append, Bool.and_eq_true]
    simp only [List.all_cons, Bool.and_eq_true] at h
    exact ⟨hrepl, ih (by simp [List.all_cons, h.2.2.1, h.2.2.2])⟩
  | case6 prev c₁ c₂ r₁ hc hpunct r₂ tail hw ih =>
    intro h
    rw [substAbbr_fallback repl hc hpunct hw, List.all_append, Bool.and_eq_true]
    simp only [List.all_cons, Bool.and_eq_true] at h
    exact ⟨hrepl, ih (by simp [List.all_cons, h.2.1, h.2.2.1, h.2.2.2])⟩
  | case7 prev c₁ c₂ r₁ hc hpunct =>
    intro h
    rw [substAbbr_three repl hc hpunct, List.all_append, Bool.and_eq_true]
    simp only [List.all_cons, Bool.and_eq_true] at h
    exact ⟨hrepl, by simp [h.2.2]⟩
  | case8 prev c₁ c₂ r₁ rtail hc hpunct hw ih =>
    intro h
    rw [substAbbr_advance repl hc hpunct hw, List.all_cons, Bool.and_eq_true]
    simp only [List.all_cons, Bool.and_eq_true] at h
    exact ⟨h.1, ih (by simp [List.all_cons, h.2.1, h.2.2.1, h.2.2.2])⟩
  | case9 prev c₁ c₂ r₁ rtail hc hpunct hw ih =>
    intro h
    rw [substAbbr_alone repl hc hpunct hw, List.all_append, Bool.and_eq_true]
    simp only [List.all_cons, Bool.and_eq_true] at h
    exact ⟨hrepl, ih (by simp [List.all_cons, h.2.1, h.2.2])⟩
  | case10 prev c₁ c₂ r₁ rtail hc ih =>
    intro h
    rw [substAbbr_nomatch repl hc, List.all_cons, Bool.and_eq_true]
    simp only [List.all_cons, Bool.and_eq_true] at h
    exact ⟨h.1, ih (by simp [List.all_cons, h.2.1, h.2.2.1, h.2.2.2])⟩

theorem all_punctToSpace (P : Char → Bool) (hsp : P ' ' = true) :
    ∀ l : List Char, l.all P = true → (punctToSpace l).all P = true := by
  intro l
  induction l with
  | nil => intro _; rfl
  | cons c t ih =>
    intro h
    rw [List.all_cons, Bool.and_eq_true] at h
    show ((if isSepPunct c then ' ' else c) :: punctToSpace t).all P = true
    rw [List.all_cons, Bool.and_eq_true]
    refine ⟨?_, ih h.2⟩
    cases hp : isSepPunct c with
    | true => rw [if_pos rfl]; exact hsp
    | false => rw [if_neg (by simp [hp])]; exact h.1

theorem noSepPunct_punctToSpace (l : List Char) :
    (punctToSpace l).all (fun c => !isSepPunct c) = true := by
  induction l with
  | nil => rfl
  | cons c t ih =>
    show ((if isSepPunct c then ' ' else c) :: punctToSpace t).all _ = true
    rw [List.all_cons, Bool.and_eq_true]
    refine ⟨?_, ih⟩
    cases hp : isSepPunct c with
    | true => rw [if_pos rfl]; decide
    | false => rw [if_neg (by simp [hp]), hp]; rfl

theorem all_collapseWsAux (P : Char → Bool) (hsp : P ' ' = true) :
    ∀ l b, l.all P = true → (collapseWsAux b l).all P = true := by
  intro l
  induction l with
  | nil => intro b _; cases b <;> rfl
  | cons c t ih =>
    intro b h
    rw [List.all_cons, Bool.and_eq_true] at h
    cases hws : isWs c with
    | true =>
      cases b with
      | true => rw [collapseWsAux_ws_true t hws]; exact ih true h.2
      | false =>
        rw [collapseWsAux_ws_false t hws, List.all_cons, Bool.and_eq_true]
        exact ⟨hsp, ih true h.2⟩
    | false =>
      rw [collapseWsAux_nws b t hws, List.all_cons, Bool.and_eq_true]
      exact ⟨h.1, ih false h.2⟩

theorem removeApos_eq_self (l : List Char)
    (h : l.all (fun c => !(c == apos)) = true) : removeApos l = l := by
  induction l with
  | nil => rfl
  | cons c t ih =>
    rw [List.all_cons, Bool.and_eq_true] at h
    show List.filter _ (c :: t) = c :: t
    rw [List.filter_cons_of_pos (by simpa using h.1)]
    rw [show List.filter (fun c => !(c == apos)) t = removeApos t from rfl, ih h.2]

theorem punctToSpace_eq_self (l : List Char)
    (h : l.all (fun c => !isSepPunct c) = true) : punctToSpace l = l := by
  induction l with
  | nil => rfl
  | cons c t ih =>
    rw [List.all_cons, Bool.and_eq_true] at h
    show (if isSepPunct c then ' ' else c) :: punctToSpace t = c :: t
    rw [if_neg (by simpa using h.1), ih h.2]


theorem headNotWs_collapseWsAux_true (l : List Char) :
    headNotWs (collapseWsAux true l) = true := by
  induction l with
  | nil => rfl
  | cons c t ih =>
    cases hws : isWs c with
    | true => rw [collapseWsAux_ws_true t hws]; exact ih
    | false => rw [collapseWsAux_nws true t hws]; show (!isWs c) = true; rw [hws]; rfl

theorem wsCanon_cons (c : Char) (t : List Char) :
    wsCanon (c :: t) = ((!isWs c || (c == ' ' && headNotWs t)) && wsCanon t) := rfl

theorem wsCanon_collapseWsAux (l : List Char) :
    ∀ b, wsCanon (collapseWsAux b l) = true := by
  induction l with
  | nil => intro b; cases b <;> rfl
  | cons c t ih =>
    intro b
    cases hws : isWs c with
    | true =>
      cases b with
      | true => rw [collapseWsAux_ws_true t hws]; exact ih true
      | false =>
        rw [collapseWsAux_ws_false t hws, wsCanon_cons, Bool.and_eq_true]
        refine ⟨?_, ih true⟩
        rw [headNotWs_collapseWsAux_true t]
        decide
    | false =>
      rw [collapseWsAux_nws b t hws, wsCanon_cons, Bool.and_eq_true]
      exact ⟨by rw [hws]; rfl, ih false⟩

theorem collapseWsAux_eq_self (l : List Char) (h : wsCanon l = true) :
    collapseWsAux false l = l ∧ (headNotWs l = true → collapseWsAux true l = l) := by
  induction l with
  | nil => exact ⟨rfl, fun _ => rfl⟩
  | cons c t ih =>
    rw [wsCanon_cons, Bool.and_eq_true] at h
    obtain ⟨h1, h2⟩ := h
    have ihh := ih h2
    cases hws : isWs c with
    | false =>
      constructor
      · rw [collapseWsAux_nws false t hws, ihh.1]
      · intro _; rw [collapseWsAux_nws true t hws, ihh.1]
    | true =>
      have hsp : (c == ' ') = true ∧ headNotWs t = true := by
        rw [hws] at h1
        simpa using h1
      constructor
      · rw [collapseWsAux_ws_false t hws, ihh.2 hsp.2, eq_of_beq hsp.1]
      · intro hh
        exfalso
        rw [show headNotWs (c :: t) = !isWs c from rfl, hws] at hh
        exact absurd hh (by simp)

theorem wsCanon_tail {c : Char} {t : List Char} (h : wsCanon (c :: t) = true) :
    wsCanon t = true := by
  rw [wsCanon_cons, Bool.and_eq_true] at h
  exact h.2

theorem wsCanon_dropWhile (l : List Char) (h : wsCanon l = true) :
    wsCanon (l.dropWhile isWs) = true := by
  induction l with
  | nil => rfl
  | cons c t ih =>
    cases hws : isWs c with
    | false => rw [List.dropWhile_cons_of_neg (by simp [hws])]; exact h
    | true => rw [List.dropWhile_cons_of_pos (by simp [hws])]; exact ih (wsCanon_tail h)

theorem headNotWs_trimRight (l : List Char) (h : headNotWs l = true) :
    headNotWs (trimRight l) = true := by
  cases l with
  | nil => rfl
  | cons c t =>
    rcases trimRight_eq c t with he | he
    · rw [he]; rfl
    · rw [he]; exact h

theorem wsCanon_trimRight (l : List Char) (h : wsCanon l = true) :
    wsCanon (trimRight l) = true := by
  induction l with
  | nil => rfl
  | cons c t ih =>
    rcases trimRight_eq c t with he | he
    · rw [he]; rfl
    · rw [he, wsCanon_cons, Bool.and_eq_true]
      rw [wsCanon_cons, Bool.and_eq_true] at h
      refine ⟨?_, ih h.2⟩
      rcases Bool.or_eq_true_iff.mp h.1 with h1 | h1
      · rw [h1]; rfl
      · rw [Bool.and_eq_true] at h1
        rw [headNotWs_trimRight t h1.2, eq_of_beq h1.1]
        simp
  
theorem headNotWs_dropWhile (l : List Char) :
    headNotWs (l.dropWhile isWs) = true := by
  induction l with
  | nil => rfl
  | cons c t ih =>
    cases hws : isWs c with
    | false => rw [List.dropWhile_cons_of_neg (by simp [hws])]; show (!isWs c) = true; rw [hws]; rfl
    | true => rw [List.dropWhile_cons_of_pos (by simp [hws])]; exact ih

theorem lastNotWs_trimRight (l : List Char) : lastNotWs (trimRight l) = true := by
  induction l with
  | nil => rfl
  | cons c t ih =>
    cases htr : trimRight t with
    | nil =>
      cases hws : isWs c with
      | true => simp [trimRight, htr, hws, lastNotWs]
      | false => simp [trimRight, htr, hws, lastNotWs]
    | cons x xs =>
      rw [htr] at ih
      have he : trimRight (c :: t) = c :: x :: xs := by
        simp [trimRight, htr]
      rw [he]
      show lastNotWs (x :: xs) = true
      exact ih

theorem trimRight_cons_eq {t : List Char} (c : Char) (h : trimRight t ≠ []) :
    trimRight (c :: t) = c :: trimRight t := by
  cases htr : trimRight t with
  | nil => exact absurd htr h
  | cons x xs => simp [trimRight, htr]

theorem trimRight_eq_self (l : List Char) (h : lastNotWs l = true) :
    trimRight l = l := by
  induction l with
  | nil => rfl
  | cons c t ih =>
    cases t with
    | nil =>
      have : isWs c = false := by simpa [lastNotWs] using h
      simp [trimRight, this]
    | cons d t' =>
      have htt : trimRight (d :: t') = d :: t' := ih (by exact h)
      rw [trimRight_cons_eq c (by rw [htt]; simp), htt]

theorem dropWhile_eq_self (l : List Char) (h : headNotWs l = true) :
    l.dropWhile isWs = l := by
  cases l with
  | nil => rfl
  | cons c t =>
    have : isWs c = false := by simpa [headNotWs] using h
    rw [List.dropWhile_cons_of_neg (by simp [this])]

theorem trimWs_eq_self (l : List Char) (h1 : headNotWs l = true)
    (h2 : lastNotWs l = true) : trimWs l = l := by
  rw [trimWs, dropWhile_eq_self l h1, trimRight_eq_self l h2]

theorem headNotWs_trimWs (l : List Char) : headNotWs (trimWs l) = true :=
  headNotWs_trimRight _ (headNotWs_dropWhile l)

theorem lastNotWs_trimWs (l : List Char) : lastNotWs (trimWs l) = true :=
  lastNotWs_trimRight _

theorem wsCanon_trimWs (l : List Char) (h : wsCanon l = true) :
    wsCanon (trimWs l) = true :=
  wsCanon_trimRight _ (wsCanon_dropWhile l h)


theorem expandAbbrs_eq_self_of_clean (y : List Char)
    (g1 : hasWordAbbr 'ש' 'ד' none y = false)
    (g2 : hasWordAbbr 'ר' 'ח' none y = false)
    (g3 : hasWordAbbr 'כ' 'י' none y = false) :
    expandAbbrs y = y := by
  unfold expandAbbrs
  rw [substAbbr_eq_self_of_insideWordOnly 'ש' 'ד' sderotRepl none y
      (insideWordOnly_of_not_hWA 'ש' 'ד' none y g1),
    substAbbr_eq_self_of_insideWordOnly 'ר' 'ח' rehovRepl none y
      (insideWordOnly_of_not_hWA 'ר' 'ח' none y g2),
    substAbbr_eq_self_of_insideWordOnly 'כ' 'י' kikarRepl none y
      (insideWordOnly_of_not_hWA 'כ' 'י' none y g3)]

/-- For apostrophe-free input, one pass of `normalizeChars` reaches a fixed
point: the output is trimmed, whitespace-canonical, free of separator
punctuation and apostrophes, and contains no bare whole-word abbreviation
occurrence, so a second pass changes nothing. -/
theorem normalizeChars_idem (l : List Char)
    (ha : l.all (fun c => !(c == apos)) = true) :
    normalizeChars (normalizeChars l) = normalizeChars l := by
  have hid : ∀ p : Option Char, bdry p = true → bdry p = true := fun _ h => h
  -- the three substitution passes
  have h1 : hasWordAbbr 'ש' 'ד' none (substAbbr 'ש' 'ד' sderotRepl none (trimWs l)) = false :=
    hWA_substAbbr_self 'ש' 'ד' sderotRepl 'ת' isWordChar_shin isWordChar_dalet
      isWordChar_tav hWA_sderot_append none (trimWs l) none (hid none)
  have h2 : hasWordAbbr 'ר' 'ח' none
      (substAbbr 'ר' 'ח' rehovRepl none (substAbbr 'ש' 'ד' sderotRepl none (trimWs l))) = false :=
    hWA_substAbbr_self 'ר' 'ח' rehovRepl 'ב' isWordChar_resh isWordChar_het
      isWordChar_bet hWA_rehov_append none _ none (hid none)
  have h1b : hasWordAbbr 'ש' 'ד' none
      (substAbbr 'ר' 'ח' rehovRepl none (substAbbr 'ש' 'ד' sderotRepl none (trimWs l))) = false :=
    hWA_substAbbr_other 'ש' 'ד' 'ר' 'ח' rehovRepl 'ב' isWordChar_shin isWordChar_dalet
      isWordChar_bet hWA_shin_rehov_append none _ none (hid none) h1
  have h3 : hasWordAbbr 'כ' 'י' none (expandAbbrs (trimWs l)) = false :=
    hWA_substAbbr_self 'כ' 'י' kikarRepl 'ר' isWordChar_kaf isWordChar_yod
      isWordChar_resh hWA_kikar_append none _ none (hid none)
  have h1c : hasWordAbbr 'ש' 'ד' none (expandAbbrs (trimWs l)) = false :=
    hWA_substAbbr_other 'ש' 'ד' 'כ' 'י' kikarRepl 'ר' isWordChar_shin isWordChar_dalet
      isWordChar_resh hWA_shin_kikar_append none _ none (hid none) h1b
  have h2c : hasWordAbbr 'ר' 'ח' none (expandAbbrs (trimWs l)) = false :=
    hWA_substAbbr_other 'ר' 'ח' 'כ' 'י' kikarRepl 'ר' isWordChar_resh isWordChar_het
      isWordChar_resh hWA_resh_kikar_append none _ none (hid none) h2
  -- apostrophe-freeness through the passes
  have ha3 : (expandAbbrs (trimWs l)).all (fun c => !(c == apos)) = true := by
    unfold expandAbbrs
    exact all_substAbbr _ 'כ' 'י' kikarRepl (by decide) none _
      (all_substAbbr _ 'ר' 'ח' rehovRepl (by decide) none _
        (all_substAbbr _ 'ש' 'ד' sderotRepl (by decide) none _ (all_trimWs _ l ha)))
  -- removeApos is the identity on the substitution output
  have hrem : removeApos (expandAbbrs (trimWs l)) = expandAbbrs (trimWs l) :=
    removeApos_eq_self _ ha3
  -- facts about p := punctToSpace (expandAbbrs (trimWs l))
  have hp1 : hasWordAbbr 'ש' 'ד' none (punctToSpace (expandAbbrs (trimWs l))) = false :=
    hWA_punctToSpace isWordChar_shin isWordChar_dalet _ none none rfl h1c
  have hp2 : hasWordAbbr 'ר' 'ח' none (punctToSpace (expandAbbrs (trimWs l))) = false :=
    hWA_punctToSpace isWordChar_resh isWordChar_het _ none none rfl h2c
  have hp3 : hasWordAbbr 'כ' 'י' none (punctToSpace (expandAbbrs (trimWs l))) = false :=
    hWA_punctToSpace isWordChar_kaf isWordChar_yod _ none none rfl h3
  have hpa : (punctToSpace (expandAbbrs (trimWs l))).all (fun c => !(c == apos)) = true :=
    all_punctToSpace _ (by decide) _ ha3
  have hps : (punctToSpace (expandAbbrs (trimWs l))).all (fun c => !isSepPunct c) = true :=
    noSepPunct_punctToSpace _
  -- facts about the collapse
  have hc1 : hasWordAbbr 'ש' 'ד' none
      (collapseWs (punctToSpace (expandAbbrs (trimWs l)))) = false :=
    hWA_collapseWsAux isWordChar_shin isWordChar_dalet _ false none none (hid none) hp1
  have hc2 : hasWordAbbr 'ר' 'ח' none
      (collapseWs (punctToSpace (expandAbbrs (trimWs l)))) = false :=
    hWA_collapseWsAux isWordChar_resh isWordChar_het _ false none none (hid none) hp2
  have hc3 : hasWordAbbr 'כ' 'י' none
      (collapseWs (punctToSpace (expandAbbrs (trimWs l)))) = false :=
    hWA_collapseWsAux isWordChar_kaf isWordChar_yod _ false none none (hid none) hp3
  have hca : (collapseWs (punctToSpace (expandAbbrs (trimWs l)))).all
      (fun c => !(c == apos)) = true :=
    all_collapseWsAux _ (by decide) _ false hpa
  have hcs : (collapseWs (punctToSpace (expandAbbrs (trimWs l)))).all
      (fun c => !isSepPunct c) = true :=
    all_collapseWsAux _ (by decide) _ false hps
  have hcw : wsCanon (collapseWs (punctToSpace (expandAbbrs (trimWs l)))) = true :=
    wsCanon_collapseWsAux _ false
  -- facts about y := normalizeChars l
  have hyeq : normalizeChars l
      = trimWs (collapseWs (punctToSpace (expandAbbrs (trimWs l)))) := by
    unfold normalizeChars
    rw [hrem]
  have hy1 : hasWordAbbr 'ש' 'ד' none (normalizeChars l) = false := by
    rw [hyeq]; exact hWA_trimWs _ hc1
  have hy2 : hasWordAbbr 'ר' 'ח' none (normalizeChars l) = false := by
    rw [hyeq]; exact hWA_trimWs _ hc2
  have hy3 : hasWordAbbr 'כ' 'י' none (normalizeChars l) = false := by
    rw [hyeq]; exact hWA_trimWs _ hc3
  have hya : (normalizeChars l).all (fun c => !(c == apos)) = true := by
    rw [hyeq]; exact all_trimWs _ _ hca
  have hys : (normalizeChars l).all (fun c => !isSepPunct c) = true := by
    rw [hyeq]; exact all_trimWs _ _ hcs
  have hyw : wsCanon (normalizeChars l) = true := by
    rw [hyeq]; exact wsCanon_trimWs _ hcw
  have hyh : headNotWs (normalizeChars l) = true := by
    rw [hyeq]; exact headNotWs_trimWs _
  have hyl : lastNotWs (normalizeChars l) = true := by
    rw [hyeq]; exact lastNotWs_trimWs _
  -- second pass is the identity
  show trimWs (collapseWs (punctToSpace (removeApos
    (expandAbbrs (trimWs (normalizeChars l)))))) = normalizeChars l
  rw [trimWs_eq_self _ hyh hyl,
    expandAbbrs_eq_self_of_clean _ hy1 hy2 hy3,
    removeApos_eq_self _ hya,
    punctToSpace_eq_self _ hys,
    show collapseWs (normalizeChars l) = normalizeChars l from
      (collapseWsAux_eq_self _ hyw).1,
    trimWs_eq_self _ hyh hyl]

/-- Counterexample to C4 as stated: normalization is not idempotent on every
string.  For the input `כ-apostrophe-י`, the first pass only strips the
apostrophe (no whole-word abbreviation is present), producing `כי`; the
second pass then expands the newly formed whole word `כי` to `כיכר`. -/
theorem C4_counterexample :
    normalize_street_name (normalize_street_name (String.mk ['כ', apos, 'י']))
      ≠ normalize_street_name (String.mk ['כ', apos, 'י']) := by decide

/-- **C4 (amended).** `normalize_street_name` is idempotent on every input
that contains no apostrophe character: one pass reaches a fixed point, and
no further abbreviation expansion, punctuation replacement or whitespace
collapsing occurs on a second pass.  (The apostrophe restriction is forced
by `C4_counterexample`: removing apostrophes can fuse letters into a new
whole-word abbreviation that only the second pass expands.) -/
theorem C4_normalize_idempotent_no_apos (s : String)
    (ha : s.toList.all (fun c => !(c == apos)) = true) :
    normalize_street_name (normalize_street_name s) = normalize_street_name s := by
  show String.mk (normalizeChars (String.mk (normalizeChars s.toList)).toList)
    = String.mk (normalizeChars s.toList)
  rw [show (String.mk (normalizeChars s.toList)).toList = normalizeChars s.toList from rfl]
  rw [normalizeChars_idem s.toList ha]

/-- Witness for C4 (amended) at the apostrophe-free input `שד רוטשילד`. -/
theorem C4_normalize_idempotent_no_apos_witness :
    ("שד רוטשילד".toList.all (fun c => !(c == apos)) = true)
      ∧ normalize_street_name (normalize_street_name "שד רוטשילד")
          = normalize_street_name "שד רוטשילד" :=
  ⟨by decide, C4_normalize_idempotent_no_apos "שד רוטשילד" (by decide)⟩


theorem lcs_self : ∀ l : List Char, lcs l l = l.length := by
  intro l
  induction l with
  | nil => simp [lcs]
  | cons c t ih => simp [lcs, ih]

theorem lcs_le_left : ∀ a b : List Char, lcs a b ≤ a.length := by
  intro a b
  induction a, b using lcs.induct with
  | case1 b => simp [lcs]
  | case2 a as => simp [lcs]
  | case3 as b bs ih =>
    rw [lcs, if_pos rfl]
    simpa using ih
  | case4 a as b bs h ih1 ih2 =>
    rw [lcs, if_neg h]
    simp only [List.length_cons]
    refine max_le ih1 (le_trans ih2 (by omega))

theorem lcs_le_right : ∀ a b : List Char, lcs a b ≤ b.length := by
  intro a b
  induction a, b using lcs.induct with
  | case1 b => simp [lcs]
  | case2 a as => simp [lcs]
  | case3 as b bs ih =>
    rw [lcs, if_pos rfl]
    simpa using ih
  | case4 a as b bs h ih1 ih2 =>
    rw [lcs, if_neg h]
    simp only [List.length_cons]
    refine max_le (le_trans ih1 (by omega)) ih2

theorem pyRound_nonneg {q : ℚ} (h : 0 ≤ q) : 0 ≤ pyRound q := by
  have hf : (0 : ℤ) ≤ ⌊q⌋ := Int.floor_nonneg.mpr h
  unfold pyRound
  split_ifs <;> omega

theorem pyRound_le_100 {q : ℚ} (h : q ≤ 100) : pyRound q ≤ 100 := by
  have hf : ⌊q⌋ ≤ 100 := by
    have h2 : ⌊q⌋ ≤ ⌊(100 : ℚ)⌋ := Int.floor_le_floor h
    simpa using h2
  have hlt : ¬(q - ⌊q⌋ < 1/2) → ⌊q⌋ < 100 := by
    intro hr
    have h1 : (⌊q⌋ : ℚ) < q := by
      have := not_lt.mp hr
      linarith
    have h2 : (⌊q⌋ : ℚ) < 100 := lt_of_lt_of_le h1 h
    exact_mod_cast h2
  unfold pyRound
  split_ifs with h1 h2 h3
  · exact hf
  · have := hlt h1; omega
  · exact hf
  · have := hlt h1; omega

theorem pyRound_100 : pyRound 100 = 100 := by
  unfold pyRound
  norm_num

theorem ratioScore_nonneg (a b : List Char) : 0 ≤ ratioScore a b := by
  unfold ratioScore
  split_ifs with h
  · norm_num
  · refine pyRound_nonneg (div_nonneg (by positivity) (by positivity))

theorem ratioScore_le_100 (a b : List Char) : ratioScore a b ≤ 100 := by
  unfold ratioScore
  split_ifs with h
  · norm_num
  · refine pyRound_le_100 ?_
    have hane : a ≠ [] := by
      intro hn
      subst hn
      simp at h
    have hpos : (0 : ℚ) < (a.length : ℚ) + (b.length : ℚ) := by
      have h2 : 0 < a.length := List.length_pos.mpr hane
      have h3 : (0 : ℚ) < (a.length : ℚ) := by exact_mod_cast h2
      have h4 : (0 : ℚ) ≤ (b.length : ℚ) := by positivity
      linarith
    rw [div_le_iff₀ hpos]
    have h1 := lcs_le_left a b
    have h2 := lcs_le_right a b
    have h1q : (lcs a b : ℚ) ≤ (a.length : ℚ) := by exact_mod_cast h1
    have h2q : (lcs a b : ℚ) ≤ (b.length : ℚ) := by exact_mod_cast h2
    linarith

theorem ratioScore_self (l : List Char) (h : l.isEmpty = false) :
    ratioScore l l = 100 := by
  unfold ratioScore
  rw [if_neg (by simp [h])]
  have hlen : l.length ≠ 0 := by
    intro hn
    rw [List.length_eq_zero] at hn
    subst hn
    simp at h
  have hq : (200 * (lcs l l : ℚ)) / ((l.length : ℚ) + (l.length : ℚ)) = 100 := by
    rw [lcs_self]
    have : (l.length : ℚ) ≠ 0 := by exact_mod_cast hlen
    field_simp
    ring
  rw [hq, pyRound_100]

theorem tokenSortScore_self (l : List Char)
    (h : (processAndSort l).isEmpty = false) : tokenSortScore l l = 100 :=
  ratioScore_self _ h

theorem tokenSortScore_nonneg (a b : List Char) : 0 ≤ tokenSortScore a b :=
  ratioScore_nonneg _ _

theorem tokenSortScore_le_100 (a b : List Char) : tokenSortScore a b ≤ 100 :=
  ratioScore_le_100 _ _

theorem all_ws_of_trimRight_nil :
    ∀ l : List Char, trimRight l = [] → ∀ c ∈ l, isWs c = true := by
  intro l
  induction l with
  | nil =>
    intro _ c hc
    simp at hc
  | cons c t ih =>
    intro h d hd
    cases htr : trimRight t with
    | nil =>
      have hw : isWs c = true := by
        by_cases hw : isWs c = true
        · exact hw
        · rw [trimRight, htr] at h
          simp [hw] at h
      rcases List.mem_cons.mp hd with rfl | hd
      · exact hw
      · exact ih htr d hd
    | cons x xs =>
      rw [trimRight, htr] at h
      simp at h

theorem all_ws_of_trimWs_nil (m : List Char) (h : trimWs m = []) :
    ∀ ch ∈ m, isWs ch = true := by
  unfold trimWs at h
  intro ch hch
  have hsplit : m.takeWhile isWs ++ m.dropWhile isWs = m :=
    List.takeWhile_append_dropWhile isWs m
  rcases List.mem_append.mp (by rw [hsplit]; exact hch) with h1 | h2
  · exact List.mem_takeWhile_imp h1
  · exact all_ws_of_trimRight_nil _ h ch h2

theorem splitWsAux_ne_nil : ∀ (t acc : List Char), acc ≠ [] →
    splitWsAux acc t ≠ [] := by
  intro t
  induction t with
  | nil =>
    intro acc h
    rw [splitWsAux, if_neg (fun hc => h (List.isEmpty_iff.mp hc))]
    simp
  | cons c t ih =>
    intro acc h
    rw [splitWsAux]
    by_cases hw : isWs c = true
    · rw [if_pos hw, if_neg (fun hc => h (List.isEmpty_iff.mp hc))]
      simp
    · rw [if_neg hw]
      exact ih (c :: acc) (by simp)

theorem splitWsAux_tokens : ∀ (t acc : List Char),
    (∀ a ∈ acc, isWs a = false) →
    ∀ x ∈ splitWsAux acc t, x ≠ [] ∧ ∀ ch ∈ x, isWs ch = false := by
  intro t
  induction t with
  | nil =>
    intro acc hacc x hx
    rw [splitWsAux] at hx
    by_cases he : acc.isEmpty = true
    · rw [if_pos he] at hx
      simp at hx
    · rw [if_neg he] at hx
      rw [List.mem_singleton] at hx
      subst hx
      refine ⟨?_, ?_⟩
      · intro hn
        exact he (by rw [List.reverse_eq_nil_iff.mp hn]; rfl)
      · intro ch hch
        exact hacc ch (List.mem_reverse.mp hch)
  | cons c t ih =>
    intro acc hacc x hx
    rw [splitWsAux] at hx
    by_cases hw : isWs c = true
    · rw [if_pos hw] at hx
      by_cases he : acc.isEmpty = true
      · rw [if_pos he] at hx
        exact ih [] (by simp) x hx
      · rw [if_neg he] at hx
        rcases List.mem_cons.mp hx with rfl | hx
        · refine ⟨?_, ?_⟩
          · intro hn
            exact he (by rw [List.reverse_eq_nil_iff.mp hn]; rfl)
          · intro ch hch
            exact hacc ch (List.mem_reverse.mp hch)
        · exact ih [] (by simp) x hx
    · rw [if_neg hw] at hx
      refine ih (c :: acc) ?_ x hx
      intro a ha
      rcases List.mem_cons.mp ha with rfl | ha
      · simpa using hw
      · exact hacc a ha

theorem mem_insertLex {x y : List Char} {l : List (List Char)} :
    y ∈ insertLex x l ↔ y = x ∨ y ∈ l := by
  induction l with
  | nil => simp [insertLex]
  | cons z zs ih =>
    by_cases h : lexLt x z = true
    · rw [insertLex, if_pos h]
      simp [List.mem_cons]
    · rw [insertLex, if_neg h, List.mem_cons, ih, List.mem_cons]
      tauto

theorem mem_sortLex {y : List Char} {l : List (List Char)} :
    y ∈ sortLex l ↔ y ∈ l := by
  induction l with
  | nil => simp [sortLex]
  | cons z zs ih => rw [sortLex, mem_insertLex, ih, List.mem_cons]

theorem joinSpace_superset : ∀ (ts : List (List Char)) (x : List Char),
    x ∈ ts → ∀ ch ∈ x, ch ∈ joinSpace ts := by
  intro ts
  induction ts with
  | nil =>
    intro x hx
    simp at hx
  | cons t rest ih =>
    intro x hx ch hch
    cases rest with
    | nil =>
      rw [List.mem_singleton] at hx
      subst hx
      exact hch
    | cons t2 rest2 =>
      have hj : joinSpace (t :: t2 :: rest2) = t ++ ' ' :: joinSpace (t2 :: rest2) :=
        rfl
      rw [hj]
      rcases List.mem_cons.mp hx with rfl | hx
      · exact List.mem_append.mpr (Or.inl hch)
      · exact List.mem_append.mpr
          (Or.inr (List.mem_cons.mpr (Or.inr (ih x hx ch hch))))

theorem trimWs_append_ne_nil (s d : List Char) (ch : Char) (hch : ch ∈ s)
    (hws : isWs ch = false) : (trimWs (s ++ d)).isEmpty = false := by
  cases hps : (trimWs (s ++ d)).isEmpty
  · rfl
  · exfalso
    have hnil : trimWs (s ++ d) = [] := List.isEmpty_iff.mp hps
    have := all_ws_of_trimWs_nil _ hnil ch (List.mem_append.mpr (Or.inl hch))
    rw [hws] at this
    exact Bool.false_ne_true this

theorem exists_token_char (l : List Char)
    (h : (full_process l).isEmpty = false) :
    ∃ x ch, x ∈ splitWs (full_process l) ∧ ch ∈ x ∧ isWs ch = false := by
  obtain ⟨c, t, hp⟩ : ∃ c t, full_process l = c :: t := by
    cases hf : full_process l with
    | nil =>
      rw [hf] at h
      simp at h
    | cons a b => exact ⟨a, b, rfl⟩
  have hhead : headNotWs (full_process l) = true := by
    unfold full_process
    exact headNotWs_trimWs _
  have hc : isWs c = false := by
    rw [hp] at hhead
    simpa [headNotWs] using hhead
  have hsp : splitWs (full_process l) ≠ [] := by
    rw [hp]
    show splitWsAux [] (c :: t) ≠ []
    rw [splitWsAux, if_neg (by simp [hc])]
    exact splitWsAux_ne_nil t [c] (by simp)
  obtain ⟨x, hx⟩ := List.exists_mem_of_ne_nil _ hsp
  obtain ⟨hxne, hxch⟩ := splitWsAux_tokens (full_process l) [] (by simp) x hx
  obtain ⟨ch0, x', hx0⟩ : ∃ ch0 x', x = ch0 :: x' := by
    cases hxx : x with
    | nil => exact absurd hxx hxne
    | cons a b => exact ⟨a, b, rfl⟩
  refine ⟨x, ch0, hx, ?_, hxch ch0 ?_⟩ <;>
    (rw [hx0]; exact List.mem_cons_self ..)

theorem processAndSort_ne_nil (l : List Char)
    (h : (full_process l).isEmpty = false) :
    (processAndSort l).isEmpty = false := by
  obtain ⟨x, ch, hx, hchx, hws⟩ := exists_token_char l h
  have hchj : ch ∈ joinSpace (sortLex (splitWs (full_process l))) :=
    joinSpace_superset _ x (mem_sortLex.mpr hx) ch hchx
  cases hps : (processAndSort l).isEmpty
  · rfl
  · exfalso
    have hnil : processAndSort l = [] := List.isEmpty_iff.mp hps
    unfold processAndSort at hnil
    have := all_ws_of_trimWs_nil _ hnil ch hchj
    rw [hws] at this
    exact Bool.false_ne_true this

theorem exists_char_in_sect (a : List Char)
    (h2 : (full_process a).isEmpty = false) :
    ∃ ch, ch ∈ joinSpace (sortLex (tokensInter (splitWs (full_process a)).dedup
      (splitWs (full_process a)).dedup)) ∧ isWs ch = false := by
  obtain ⟨x, ch, hx, hchx, hws⟩ := exists_token_char a h2
  have hd : x ∈ (splitWs (full_process a)).dedup := List.mem_dedup.mpr hx
  have hint : x ∈ tokensInter (splitWs (full_process a)).dedup
      (splitWs (full_process a)).dedup := by
    unfold tokensInter
    rw [List.mem_filter]
    exact ⟨hd, by simpa using hd⟩
  exact ⟨ch, joinSpace_superset _ x (mem_sortLex.mpr hint) ch hchx, hws⟩

theorem tokenSetScore_nonneg (a b : List Char) : 0 ≤ tokenSetScore a b := by
  simp only [tokenSetScore]
  split_ifs <;>
    first
      | exact le_trans (ratioScore_nonneg _ _) (le_max_left _ _)
      | norm_num

theorem tokenSetScore_le_100 (a b : List Char) : tokenSetScore a b ≤ 100 := by
  simp only [tokenSetScore]
  split_ifs <;>
    first
      | exact max_le (ratioScore_le_100 _ _)
          (max_le (ratioScore_le_100 _ _) (ratioScore_le_100 _ _))
      | norm_num

theorem tokenSetScore_self (a : List Char) (h1 : a.isEmpty = false)
    (h2 : (full_process a).isEmpty = false) : tokenSetScore a a = 100 := by
  obtain ⟨ch, hch, hws⟩ := exists_char_in_sect a h2
  have hcomb : (trimWs (joinSpace (sortLex (tokensInter
      (splitWs (full_process a)).dedup (splitWs (full_process a)).dedup))
        ++ ' ' :: joinSpace (sortLex (tokensDiff
          (splitWs (full_process a)).dedup
          (splitWs (full_process a)).dedup)))).isEmpty = false :=
    trimWs_append_ne_nil _ _ ch hch hws
  simp only [tokenSetScore]
  rw [if_neg (by simp [h1]), if_neg (by simp [h1])]
  rw [if_neg (by simp [List.isEmpty_iff] at h2 ⊢; exact h2),
    if_neg (by simp [List.isEmpty_iff] at h2 ⊢; exact h2)]
  rw [ratioScore_self _ hcomb]
  rw [max_eq_right (ratioScore_le_100 _ _), max_eq_right (ratioScore_le_100 _ _)]

theorem weightedAverageScore_nonneg {r ts tset : ℤ} (hr : 0 ≤ r) (hts : 0 ≤ ts)
    (htset : 0 ≤ tset) : 0 ≤ weightedAverageScore r ts tset := by
  unfold weightedAverageScore
  refine div_nonneg ?_ (by norm_num)
  push_cast
  have hrq : (0 : ℚ) ≤ (r : ℚ) := by exact_mod_cast hr
  have htsq : (0 : ℚ) ≤ (ts : ℚ) := by exact_mod_cast hts
  have htsetq : (0 : ℚ) ≤ (tset : ℚ) := by exact_mod_cast htset
  linarith

theorem weightedAverageScore_le_100 {r ts tset : ℤ} (hr : r ≤ 100) (hts : ts ≤ 100)
    (htset : tset ≤ 100) : weightedAverageScore r ts tset ≤ 100 := by
  unfold weightedAverageScore
  rw [div_le_iff₀ (by norm_num : (0:ℚ) < 10)]
  push_cast
  have hrq : (r : ℚ) ≤ 100 := by exact_mod_cast hr
  have htsq : (ts : ℚ) ≤ 100 := by exact_mod_cast hts
  have htsetq : (tset : ℚ) ≤ 100 := by exact_mod_cast htset
  linarith

theorem blendedScore_nonneg (a b : String) : 0 ≤ blendedScore a b :=
  weightedAverageScore_nonneg (ratioScore_nonneg _ _) (tokenSortScore_nonneg _ _)
    (tokenSetScore_nonneg _ _)

theorem blendedScore_le_100 (a b : String) : blendedScore a b ≤ 100 :=
  weightedAverageScore_le_100 (ratioScore_le_100 _ _) (tokenSortScore_le_100 _ _)
    (tokenSetScore_le_100 _ _)


/-- Counterexample to C3 as stated: for the identical normalized names `"!"`
(`"!"` is a fixed point of `normalize_street_name`) the raw ratio is 100,
but the processed form of `"!"` is empty, so token-sort compares two empty
strings and scores 0 (`fuzz.ratio` returns 0 when either argument is
empty), and token-set returns 0 via `utils.validate_string`; the blended
score is 20, not 100. -/
theorem C3_counterexample :
    normalize_street_name "!" = "!"
      ∧ ratioScore "!".toList "!".toList = 100
      ∧ tokenSortScore "!".toList "!".toList = 0
      ∧ tokenSetScore "!".toList "!".toList = 0
      ∧ blendedScore "!" "!" = 20 := by
  have hsort : tokenSortScore "!".toList "!".toList = 0 := by decide
  have hset : tokenSetScore "!".toList "!".toList = 0 := by
    simp only [tokenSetScore]
    rw [if_neg (by decide), if_neg (by decide), if_pos (by decide)]
  refine ⟨by decide, ratioScore_self "!".toList (by decide), hsort, hset, ?_⟩
  unfold blendedScore
  rw [ratioScore_self "!".toList (by decide), hsort, hset]
  norm_num [weightedAverageScore]

/-- **C3 (amended).** The blended candidate score is the 0.2/0.3/0.5
weighted average of the raw ratio, token-sort and token-set metrics
(token-set weighted highest, then token-sort, then raw) and lies in
[0, 100]; `_calculate_scores` records exactly this blend on every candidate
row; and for two identical names whose processed form is non-empty, all
three sub-metrics equal 100, so the blend is 100.  The
non-empty-processed-form proviso is forced by `C3_counterexample`: with an
empty processed form, token-sort and token-set are both 0 (fuzzywuzzy's
empty-string guards), so the blend is 20. -/
theorem C3_blended_score (a b : String) :
    (blendedScore a b = weightedAverageScore (ratioScore a.toList b.toList)
        (tokenSortScore a.toList b.toList) (tokenSetScore a.toList b.toList)
      ∧ 0 ≤ blendedScore a b ∧ blendedScore a b ≤ 100)
    ∧ (∀ r : LamasRow, a ≠ "" →
        calculate_scores (some a) [r]
          = [⟨r.LAMAS_id, r.LAMAS_name, blendedScore a r.normalized_name,
              tokenSetScore a.toList r.normalized_name.toList, a⟩])
    ∧ (b = a → a.toList.isEmpty = false → (full_process a.toList).isEmpty = false →
        ratioScore a.toList b.toList = 100 ∧ tokenSortScore a.toList b.toList = 100
          ∧ tokenSetScore a.toList b.toList = 100 ∧ blendedScore a b = 100) := by
  refine ⟨⟨rfl, blendedScore_nonneg a b, blendedScore_le_100 a b⟩, ?_, ?_⟩
  · intro r ha
    simp [calculate_scores, ha]
  · rintro rfl hne hproc
    refine ⟨ratioScore_self _ hne,
      tokenSortScore_self _ (processAndSort_ne_nil _ hproc),
      tokenSetScore_self _ hne hproc, ?_⟩
    unfold blendedScore
    rw [ratioScore_self _ hne,
      tokenSortScore_self _ (processAndSort_ne_nil _ hproc),
      tokenSetScore_self _ hne hproc]
    norm_num [weightedAverageScore]

/-- Witness for C3 (amended) at the identical pair `אב`/`אב` and one
concrete registry row. -/
theorem C3_blended_score_witness :
    (("אב" : String).toList.isEmpty = false)
      ∧ ((full_process ("אב" : String).toList).isEmpty = false)
      ∧ (("אב" : String) ≠ "")
      ∧ (ratioScore ("אב" : String).toList ("אב" : String).toList = 100
          ∧ tokenSortScore ("אב" : String).toList ("אב" : String).toList = 100
          ∧ tokenSetScore ("אב" : String).toList ("אב" : String).toList = 100
          ∧ blendedScore "אב" "אב" = 100)
      ∧ calculate_scores (some "אב") [⟨"101", "n", "c", "אב"⟩]
          = [⟨"101", "n", blendedScore "אב" "אב",
              tokenSetScore ("אב" : String).toList ("אב" : String).toList, "אב"⟩] :=
  ⟨by decide, by decide, by decide,
    (C3_blended_score "אב" "אב").2.2 rfl (by decide) (by decide),
    (C3_blended_score "אב" "אב").2.1 ⟨"101", "n", "c", "אב"⟩ (by decide)⟩


theorem foldl_max_ge_init (xs : List ScoreRec) :
    ∀ m : ℚ, m ≤ xs.foldl (fun m r => max m r.weighted_score) m := by
  induction xs with
  | nil => intro m; exact le_refl m
  | cons x t ih =>
    intro m
    exact le_trans (le_max_left m x.weighted_score) (ih _)

theorem foldl_max_ge_mem (xs : List ScoreRec) :
    ∀ m : ℚ, ∀ r ∈ xs, r.weighted_score ≤ xs.foldl (fun m r => max m r.weighted_score) m := by
  induction xs with
  | nil => intro m r hr; exact absurd hr (by simp)
  | cons x t ih =>
    intro m r hr
    rcases List.mem_cons.mp hr with rfl | hr
    · exact le_trans (le_max_right m r.weighted_score) (foldl_max_ge_init t _)
    · exact ih _ r hr

theorem foldl_max_attained (xs : List ScoreRec) :
    ∀ m : ℚ, xs.foldl (fun m r => max m r.weighted_score) m = m
      ∨ ∃ r ∈ xs, xs.foldl (fun m r => max m r.weighted_score) m = r.weighted_score := by
  induction xs with
  | nil => intro m; exact Or.inl rfl
  | cons x t ih =>
    intro m
    rcases ih (max m x.weighted_score) with h | ⟨r, hr, he⟩
    · rcases le_total m x.weighted_score with hm | hm
      · right
        refine ⟨x, List.mem_cons_self .., ?_⟩
        rw [List.foldl_cons, h, max_eq_right hm]
      · left
        rw [List.foldl_cons, h, max_eq_left hm]
    · right
      exact ⟨r, List.mem_cons_of_mem _ hr, he⟩

theorem le_maxScore (l : List ScoreRec) (r : ScoreRec) (hr : r ∈ l) :
    r.weighted_score ≤ maxScore l := by
  cases l with
  | nil => exact absurd hr (by simp)
  | cons x t =>
    rcases List.mem_cons.mp hr with rfl | hr
    · exact foldl_max_ge_init t _
    · exact foldl_max_ge_mem t _ r hr

theorem maxScore_attained (l : List ScoreRec) (h : l ≠ []) :
    ∃ r ∈ l, r.weighted_score = maxScore l := by
  cases l with
  | nil => exact absurd rfl h
  | cons x t =>
    rcases foldl_max_attained t x.weighted_score with he | ⟨r, hr, he⟩
    · exact ⟨x, List.mem_cons_self .., he.symm⟩
    · exact ⟨r, List.mem_cons_of_mem _ hr, he.symm⟩

theorem pyMax_none_iff (f : ScoreRec → ℚ) (l : List ScoreRec) :
    pyMax f l = none ↔ l = [] := by
  cases l <;> simp [pyMax]

theorem pyMax_foldl_mem (f : ScoreRec → ℚ) (xs : List ScoreRec) :
    ∀ acc : ScoreRec, xs.foldl (fun acc y => if f acc < f y then y else acc) acc = acc
      ∨ xs.foldl (fun acc y => if f acc < f y then y else acc) acc ∈ xs := by
  induction xs with
  | nil => intro acc; exact Or.inl rfl
  | cons x t ih =>
    intro acc
    rw [List.foldl_cons]
    by_cases hlt : f acc < f x
    · rw [if_pos hlt]
      rcases ih x with h | h
      · right; rw [h]; exact List.mem_cons_self ..
      · right; exact List.mem_cons_of_mem _ h
    · rw [if_neg hlt]
      rcases ih acc with h | h
      · left; exact h
      · right; exact List.mem_cons_of_mem _ h

theorem pyMax_foldl_ge (f : ScoreRec → ℚ) (xs : List ScoreRec) :
    ∀ acc : ScoreRec,
      f acc ≤ f (xs.foldl (fun acc y => if f acc < f y then y else acc) acc)
        ∧ ∀ r ∈ xs, f r ≤ f (xs.foldl (fun acc y => if f acc < f y then y else acc) acc) := by
  induction xs with
  | nil => intro acc; exact ⟨le_refl _, by simp⟩
  | cons x t ih =>
    intro acc
    rw [List.foldl_cons]
    by_cases hlt : f acc < f x
    · rw [if_pos hlt]
      refine ⟨le_trans (le_of_lt hlt) (ih x).1, ?_⟩
      intro r hr
      rcases List.mem_cons.mp hr with rfl | hr
      · exact (ih r).1
      · exact (ih x).2 r hr
    · rw [if_neg hlt]
      refine ⟨(ih acc).1, ?_⟩
      intro r hr
      rcases List.mem_cons.mp hr with rfl | hr
      · exact le_trans (le_of_not_lt hlt) (ih acc).1
      · exact (ih acc).2 r hr

theorem pyMax_spec (f : ScoreRec → ℚ) (l : List ScoreRec) (b : ScoreRec)
    (hb : pyMax f l = some b) : b ∈ l ∧ ∀ r ∈ l, f r ≤ f b := by
  cases l with
  | nil => simp [pyMax] at hb
  | cons x t =>
    simp only [pyMax, Option.some_inj] at hb
    subst hb
    constructor
    · rcases pyMax_foldl_mem f t x with h | h
      · rw [h]; exact List.mem_cons_self ..
      · exact List.mem_cons_of_mem _ h
    · intro r hr
      rcases List.mem_cons.mp hr with rfl | hr
      · exact (pyMax_foldl_ge f t r).1
      · exact (pyMax_foldl_ge f t x).2 r hr

theorem mem_insertScore {x r : ScoreRec} {l : List ScoreRec} :
    x ∈ insertScore r l ↔ x = r ∨ x ∈ l := by
  induction l with
  | nil => simp [insertScore]
  | cons y ys ih =>
    by_cases hlt : y.weighted_score < r.weighted_score
    · rw [insertScore, if_pos hlt]
      simp [List.mem_cons]
    · rw [insertScore, if_neg hlt]
      rw [List.mem_cons, ih, List.mem_cons]
      tauto

theorem mem_sortScoresDesc {x : ScoreRec} {l : List ScoreRec} :
    x ∈ sortScoresDesc l ↔ x ∈ l := by
  induction l with
  | nil => simp [sortScoresDesc]
  | cons y ys ih =>
    rw [sortScoresDesc, mem_insertScore, ih, List.mem_cons]

theorem sorted_insertScore (r : ScoreRec) (l : List ScoreRec)
    (h : List.Pairwise (fun a b => b.weighted_score ≤ a.weighted_score) l) :
    List.Pairwise (fun a b => b.weighted_score ≤ a.weighted_score) (insertScore r l) := by
  induction l with
  | nil => simp [insertScore]
  | cons y ys ih =>
    rw [List.pairwise_cons] at h
    by_cases hlt : y.weighted_score < r.weighted_score
    · rw [insertScore, if_pos hlt]
      rw [List.pairwise_cons]
      refine ⟨?_, List.pairwise_cons.mpr h⟩
      intro b hb
      rcases List.mem_cons.mp hb with rfl | hb
      · exact le_of_lt hlt
      · exact le_trans (h.1 b hb) (le_of_lt hlt)
    · rw [insertScore, if_neg hlt]
      rw [List.pairwise_cons]
      refine ⟨?_, ih h.2⟩
      intro b hb
      rcases mem_insertScore.mp hb with rfl | hb
      · exact le_of_not_lt hlt
      · exact h.1 b hb

theorem sorted_sortScoresDesc (l : List ScoreRec) :
    List.Pairwise (fun a b => b.weighted_score ≤ a.weighted_score) (sortScoresDesc l) := by
  induction l with
  | nil => simp [sortScoresDesc]
  | cons y ys ih => exact sorted_insertScore y _ ih

theorem insertScore_ne_nil (r : ScoreRec) (l : List ScoreRec) :
    insertScore r l ≠ [] := by
  cases l with
  | nil => simp [insertScore]
  | cons y ys =>
    rw [insertScore]
    split_ifs <;> simp

theorem sortScoresDesc_head_max (l : List ScoreRec) (h : l ≠ []) :
    ∃ h0 t, sortScoresDesc l = h0 :: t ∧ h0.weighted_score = maxScore l := by
  have hne : sortScoresDesc l ≠ [] := by
    cases l with
    | nil => exact absurd rfl h
    | cons y ys => rw [sortScoresDesc]; exact insertScore_ne_nil y _
  obtain ⟨h0, t, he⟩ : ∃ h0 t, sortScoresDesc l = h0 :: t := by
    cases hs : sortScoresDesc l with
    | nil => exact absurd hs hne
    | cons a b => exact ⟨a, b, rfl⟩
  refine ⟨h0, t, he, ?_⟩
  have hmem : h0 ∈ l := mem_sortScoresDesc.mp (he ▸ List.mem_cons_self ..)
  have hle : h0.weighted_score ≤ maxScore l := le_maxScore l h0 hmem
  obtain ⟨m, hm, hmw⟩ := maxScore_attained l h
  have hms : m ∈ h0 :: t := he ▸ mem_sortScoresDesc.mpr hm
  have hsorted := sorted_sortScoresDesc l
  rw [he, List.pairwise_cons] at hsorted
  rcases List.mem_cons.mp hms with rfl | hms
  · exact hmw
  · have := hsorted.1 m hms
    exact le_antisymm hle (hmw ▸ this)

theorem dedupById_sublist : ∀ (seen : List String) (l : List ScoreRec),
    List.Sublist (dedupById seen l) l := by
  intro seen l
  induction seen, l using dedupById.induct with
  | case1 seen => exact List.Sublist.refl []
  | case2 seen x t hc ih =>
    rw [dedupById, if_pos hc]
    exact List.Sublist.cons x ih
  | case3 seen x t hc ih =>
    rw [dedupById, if_neg hc]
    exact List.Sublist.cons₂ x ih

theorem dedupById_cons_new (x : ScoreRec) (t : List ScoreRec) :
    dedupById [] (x :: t) = x :: dedupById [x.LAMAS_id] t := by
  rw [dedupById]
  rw [if_neg (by simp)]



theorem calculate_scores_nil (n : Option String) : calculate_scores n [] = [] := by
  cases n <;> simp [calculate_scores]

theorem hebrewScores_nil (row : OsmRow) (df : List LamasRow)
    (h : lamasSubset row df = []) : hebrewScores row df = [] := by
  unfold hebrewScores
  rw [h]
  cases hn : row.name_he with
  | none => rfl
  | some s =>
    show (if s = "" then [] else calculate_scores (some s) []) = []
    split_ifs
    · rfl
    · exact calculate_scores_nil _

theorem allScores_nil (row : OsmRow) (df : List LamasRow)
    (h : lamasSubset row df = []) : allScores row df = [] := by
  unfold allScores
  rw [hebrewScores_nil row df h, h]
  simp [calculate_scores_nil]

theorem rowScores_nil (row : OsmRow) (df : List LamasRow)
    (h : lamasSubset row df = []) : rowScores row df = [] := by
  unfold rowScores
  have h3 : confidentHebrew row df = [] := by
    unfold confidentHebrew
    rw [hebrewScores_nil row df h]
    rfl
  rw [h3, allScores_nil row df h]
  simp

theorem rowScores_of_conf_nil (row : OsmRow) (df : List LamasRow)
    (h : confidentHebrew row df = []) : rowScores row df = allScores row df := by
  unfold rowScores
  rw [h]
  simp

theorem rowScores_of_conf_ne (row : OsmRow) (df : List LamasRow)
    (h : confidentHebrew row df ≠ []) : rowScores row df = hebrewScores row df := by
  unfold rowScores
  rw [if_neg (fun hc => h (List.isEmpty_iff.mp hc))]

theorem classifyRow_confident_hebrew (row : OsmRow) (df : List LamasRow)
    (best : ScoreRec) (hsub : (lamasSubset row df).isEmpty = false)
    (hpm : pyMax (fun s => s.weighted_score) (confidentHebrew row df) = some best) :
    classifyRow row df = ⟨row.osm_id, "CONFIDENT", some best.LAMAS_id,
      some best.LAMAS_name, best.weighted_score, none⟩ := by
  unfold classifyRow
  rw [hpm]
  simp [hsub]

theorem classifyRow_fallback (row : OsmRow) (df : List LamasRow)
    (hsub : (lamasSubset row df).isEmpty = false)
    (hpm : pyMax (fun s => s.weighted_score) (confidentHebrew row df) = none)
    (hall : (allScores row df).isEmpty = false)
    (hdf : (scoresDf row df).isEmpty = false) :
    classifyRow row df =
      match ((scoresDf row df).filter
        (fun s => decide (90 ≤ s.weighted_score))).head? with
      | some c =>
        ⟨row.osm_id, "CONFIDENT", some c.LAMAS_id, some c.LAMAS_name,
          c.weighted_score, none⟩
      | none =>
        match (aiCandidates row df).head? with
        | some b =>
          ⟨row.osm_id, "NEEDS_AI", some b.LAMAS_id, some b.LAMAS_name,
            b.weighted_score, some (aiCandidates row df)⟩
        | none =>
          ⟨row.osm_id, "MISSING", none, none,
            (((scoresDf row df).head?).map (fun s => s.weighted_score)).getD 0,
            none⟩ := by
  unfold classifyRow
  rw [hpm]
  simp [hsub, hall, hdf]

theorem blendedScore_self (a : String) (h1 : a.toList.isEmpty = false)
    (h2 : (full_process a.toList).isEmpty = false) : blendedScore a a = 100 := by
  unfold blendedScore
  rw [ratioScore_self _ h1, tokenSortScore_self _ (processAndSort_ne_nil _ h2),
    tokenSetScore_self _ h1 h2]
  norm_num [weightedAverageScore]

/-- **C2.** For every OSM row whose scored candidate list is non-empty, the
classification is determined by the top blended score `s` of that list:
if `90 ≤ s` (in particular at exactly 90) the status is `CONFIDENT` and the
best fields record a top-scoring candidate; if `80 ≤ s < 90` (in particular
at exactly 80) the status is `NEEDS_AI`, a non-empty list of at most 5
candidates is retained, each retained candidate scores in `[80, 90)`, the
list is sorted by descending score, its head scores `s`, and the best
fields record a top-scoring candidate with best score `s`; and if `s < 80`
the status is `MISSING` with best score `s` and no identifier. -/
theorem C2_threshold_classification (row : OsmRow) (df : List LamasRow)
    (hne : rowScores row df ≠ []) :
    (90 ≤ maxScore (rowScores row df) →
      (classifyRow row df).status = "CONFIDENT"
      ∧ (classifyRow row df).best_score = maxScore (rowScores row df)
      ∧ ∃ r ∈ rowScores row df,
          r.weighted_score = maxScore (rowScores row df)
          ∧ (classifyRow row df).best_LAMAS_id = some r.LAMAS_id
          ∧ (classifyRow row df).best_LAMAS_name = some r.LAMAS_name)
    ∧ (80 ≤ maxScore (rowScores row df) ∧ maxScore (rowScores row df) < 90 →
      (classifyRow row df).status = "NEEDS_AI"
      ∧ (classifyRow row df).best_score = maxScore (rowScores row df)
      ∧ (∃ r ∈ rowScores row df,
          r.weighted_score = maxScore (rowScores row df)
          ∧ (classifyRow row df).best_LAMAS_id = some r.LAMAS_id
          ∧ (classifyRow row df).best_LAMAS_name = some r.LAMAS_name)
      ∧ ∃ l, (classifyRow row df).all_candidates = some l
          ∧ l ≠ [] ∧ l.length ≤ 5
          ∧ (∀ r ∈ l, 80 ≤ r.weighted_score ∧ r.weighted_score < 90
              ∧ r ∈ rowScores row df)
          ∧ List.Pairwise (fun a b => b.weighted_score ≤ a.weighted_score) l
          ∧ l.head?.map (fun r => r.weighted_score)
              = some (maxScore (rowScores row df)))
    ∧ (maxScore (rowScores row df) < 80 →
      (classifyRow row df).status = "MISSING"
      ∧ (classifyRow row df).best_LAMAS_id = none
      ∧ (classifyRow row df).best_LAMAS_name = none
      ∧ (classifyRow row df).best_score = maxScore (rowScores row df)
      ∧ (classifyRow row df).all_candidates = none) := by
  have hsubF : (lamasSubset row df).isEmpty = false := by
    cases hc : (lamasSubset row df).isEmpty
    · rfl
    · exact absurd (rowScores_nil row df (List.isEmpty_iff.mp hc)) hne
  cases hpm : pyMax (fun s => s.weighted_score) (confidentHebrew row df) with
  | some best =>
    have hspec := pyMax_spec _ _ _ hpm
    have hbmem : best ∈ confidentHebrew row df := hspec.1
    have hbheb : best ∈ hebrewScores row df := (List.mem_filter.mp hbmem).1
    have h90b : 90 ≤ best.weighted_score := by
      have := (List.mem_filter.mp hbmem).2
      simpa using this
    have hconf_ne : confidentHebrew row df ≠ [] := by
      intro h
      rw [h] at hbmem
      exact absurd hbmem (by simp)
    have hrow : rowScores row df = hebrewScores row df :=
      rowScores_of_conf_ne row df hconf_ne
    have hheb_ne : hebrewScores row df ≠ [] := by
      intro h
      rw [h] at hbheb
      exact absurd hbheb (by simp)
    have hle : best.weighted_score ≤ maxScore (hebrewScores row df) :=
      le_maxScore _ _ hbheb
    obtain ⟨m, hm, hmw⟩ := maxScore_attained _ hheb_ne
    have h90m : 90 ≤ m.weighted_score := by
      rw [hmw]
      linarith
    have hmconf : m ∈ confidentHebrew row df :=
      List.mem_filter.mpr ⟨hm, by simpa using h90m⟩
    have hge : m.weighted_score ≤ best.weighted_score := hspec.2 m hmconf
    have heq : best.weighted_score = maxScore (rowScores row df) := by
      rw [hrow]
      exact le_antisymm hle (by rw [← hmw]; exact hge)
    have hcls := classifyRow_confident_hebrew row df best hsubF hpm
    have h90s : 90 ≤ maxScore (rowScores row df) := by
      rw [← heq]
      exact h90b
    refine ⟨fun _ => ?_, ?_, ?_⟩
    · rw [hcls]
      exact ⟨rfl, heq, best, hrow ▸ hbheb, heq, rfl, rfl⟩
    · rintro ⟨_, hlt⟩
      exact absurd h90s (not_le.mpr hlt)
    · intro hlt
      exact absurd h90s (not_le.mpr (by linarith))
  | none =>
    have hconf_nil : confidentHebrew row df = [] := (pyMax_none_iff _ _).mp hpm
    have hrow : rowScores row df = allScores row df :=
      rowScores_of_conf_nil row df hconf_nil
    have hall_ne : allScores row df ≠ [] := by
      rw [← hrow]
      exact hne
    have hallF : (allScores row df).isEmpty = false := by
      cases hc : (allScores row df).isEmpty
      · rfl
      · exact absurd (List.isEmpty_iff.mp hc) hall_ne
    obtain ⟨h0, t, hsorteq, hh0w⟩ := sortScoresDesc_head_max _ hall_ne
    have hdf_eq : scoresDf row df = h0 :: dedupById [h0.LAMAS_id] t := by
      unfold scoresDf
      rw [hsorteq, dedupById_cons_new]
    have hdfF : (scoresDf row df).isEmpty = false := by
      rw [hdf_eq]
      rfl
    have hh0s : h0.weighted_score = maxScore (rowScores row df) := by
      rw [hrow]
      exact hh0w
    have hDsub : List.Sublist (scoresDf row df)
        (sortScoresDesc (allScores row df)) := dedupById_sublist [] _
    have hDmem : ∀ r ∈ scoresDf row df, r ∈ rowScores row df := by
      intro r hr
      rw [hrow]
      exact mem_sortScoresDesc.mp (hDsub.subset hr)
    have hDle : ∀ r ∈ scoresDf row df,
        r.weighted_score ≤ maxScore (rowScores row df) :=
      fun r hr => le_maxScore _ _ (hDmem r hr)
    have hDsorted : List.Pairwise
        (fun a b => b.weighted_score ≤ a.weighted_score) (scoresDf row df) :=
      (sorted_sortScoresDesc _).sublist hDsub
    have hcls := classifyRow_fallback row df hsubF hpm hallF hdfF
    have hh0mem : h0 ∈ rowScores row df := by
      refine hDmem h0 ?_
      rw [hdf_eq]
      exact List.mem_cons_self ..
    refine ⟨?_, ?_, ?_⟩
    · intro h90
      have hpos : (decide (90 ≤ h0.weighted_score)) = true :=
        decide_eq_true (by rw [hh0s]; exact h90)
      have hfil : (scoresDf row df).filter (fun s => decide (90 ≤ s.weighted_score))
          = h0 :: (dedupById [h0.LAMAS_id] t).filter
              (fun s => decide (90 ≤ s.weighted_score)) := by
        rw [hdf_eq, List.filter_cons, if_pos hpos]
      have hhead : ((scoresDf row df).filter
          (fun s => decide (90 ≤ s.weighted_score))).head? = some h0 := by
        rw [hfil]
        rfl
      rw [hcls, hhead]
      exact ⟨rfl, hh0s, h0, hh0mem, hh0s, rfl, rfl⟩
    · rintro ⟨h80, hlt90⟩
      have hfilnil : (scoresDf row df).filter
          (fun s => decide (90 ≤ s.weighted_score)) = [] := by
        rw [List.filter_eq_nil_iff]
        intro r hr
        simp only [decide_eq_true_eq]
        intro hge
        have := hDle r hr
        linarith
      have hhead1 : ((scoresDf row df).filter
          (fun s => decide (90 ≤ s.weighted_score))).head? = none := by
        rw [hfilnil]
        rfl
      have hp0 : (decide (80 ≤ h0.weighted_score)
          && decide (h0.weighted_score < 90)) = true := by
        rw [Bool.and_eq_true]
        exact ⟨decide_eq_true (by rw [hh0s]; exact h80),
          decide_eq_true (by rw [hh0s]; exact hlt90)⟩
      have hai : aiCandidates row df
          = h0 :: ((dedupById [h0.LAMAS_id] t).filter (fun s =>
              decide (80 ≤ s.weighted_score)
                && decide (s.weighted_score < 90))).take 4 := by
        unfold aiCandidates
        rw [hdf_eq, List.filter_cons, if_pos hp0]
        rfl
      have hhead2 : (aiCandidates row df).head? = some h0 := by
        rw [hai]
        rfl
      have hsubl : List.Sublist (aiCandidates row df) (scoresDf row df) := by
        unfold aiCandidates
        exact (List.take_sublist _ _).trans (List.filter_sublist _)
      rw [hcls, hhead1, hhead2]
      refine ⟨rfl, hh0s, ⟨h0, hh0mem, hh0s, rfl, rfl⟩,
        aiCandidates row df, rfl, ?_, ?_, ?_, ?_, ?_⟩
      · rw [hai]
        simp
      · unfold aiCandidates
        exact List.length_take_le _ _
      · intro r hr
        have hrfil : r ∈ (scoresDf row df).filter (fun s =>
            decide (80 ≤ s.weighted_score) && decide (s.weighted_score < 90)) := by
          unfold aiCandidates at hr
          exact (List.take_sublist _ _).subset hr
        have hp := List.mem_filter.mp hrfil
        rw [Bool.and_eq_true] at hp
        exact ⟨of_decide_eq_true hp.2.1, of_decide_eq_true hp.2.2,
          hDmem r hp.1⟩
      · exact hDsorted.sublist hsubl
      · rw [hai]
        exact congrArg some hh0s
    · intro hlt80
      have hfilnil : (scoresDf row df).filter
          (fun s => decide (90 ≤ s.weighted_score)) = [] := by
        rw [List.filter_eq_nil_iff]
        intro r hr
        simp only [decide_eq_true_eq]
        intro hge
        have := hDle r hr
        linarith
      have hhead1 : ((scoresDf row df).filter
          (fun s => decide (90 ≤ s.weighted_score))).head? = none := by
        rw [hfilnil]
        rfl
      have hfilnil2 : (scoresDf row df).filter (fun s =>
          decide (80 ≤ s.weighted_score) && decide (s.weighted_score < 90)) = [] := by
        rw [List.filter_eq_nil_iff]
        intro r hr
        simp only [Bool.and_eq_true, decide_eq_true_eq]
        rintro ⟨h80r, _⟩
        have := hDle r hr
        linarith
      have hainil : aiCandidates row df = [] := by
        unfold aiCandidates
        rw [hfilnil2]
        rfl
      have hhead2 : (aiCandidates row df).head? = none := by
        rw [hainil]
        rfl
      have hheadD : (scoresDf row df).head? = some h0 := by
        rw [hdf_eq]
        rfl
      rw [hcls, hhead1, hhead2, hheadD]
      exact ⟨rfl, rfl, rfl, hh0s, rfl⟩

/-- Witness for C2: a row with an identical Hebrew name scores 100, so the
top score is at least 90 and the first implication yields a `CONFIDENT`
classification at a top-scoring candidate. -/
theorem C2_threshold_classification_witness :
    (rowScores ⟨"1", "c", some "אב", []⟩ [⟨"101", "n", "c", "אב"⟩] ≠ []
      ∧ 90 ≤ maxScore (rowScores ⟨"1", "c", some "אב", []⟩ [⟨"101", "n", "c", "אב"⟩]))
    ∧ ((classifyRow ⟨"1", "c", some "אב", []⟩ [⟨"101", "n", "c", "אב"⟩]).status
          = "CONFIDENT"
      ∧ (classifyRow ⟨"1", "c", some "אב", []⟩ [⟨"101", "n", "c", "אב"⟩]).best_score
          = maxScore (rowScores ⟨"1", "c", some "אב", []⟩ [⟨"101", "n", "c", "אב"⟩])
      ∧ ∃ r ∈ rowScores ⟨"1", "c", some "אב", []⟩ [⟨"101", "n", "c", "אב"⟩],
          r.weighted_score
              = maxScore (rowScores ⟨"1", "c", some "אב", []⟩ [⟨"101", "n", "c", "אב"⟩])
          ∧ (classifyRow ⟨"1", "c", some "אב", []⟩
              [⟨"101", "n", "c", "אב"⟩]).best_LAMAS_id = some r.LAMAS_id
          ∧ (classifyRow ⟨"1", "c", some "אב", []⟩
              [⟨"101", "n", "c", "אב"⟩]).best_LAMAS_name = some r.LAMAS_name) := by
  have hb : blendedScore "אב" "אב" = 100 := blendedScore_self _ (by decide) (by decide)
  have hheb : hebrewScores ⟨"1", "c", some "אב", []⟩ [⟨"101", "n", "c", "אב"⟩]
      = [⟨"101", "n", blendedScore "אב" "אב",
          tokenSetScore ("אב" : String).toList ("אב" : String).toList, "אב"⟩] := rfl
  have hdec : (decide (90 ≤ (⟨"101", "n", blendedScore "אב" "אב",
      tokenSetScore ("אב" : String).toList ("אב" : String).toList, "אב"⟩
        : ScoreRec).weighted_score)) = true := by
    rw [decide_eq_true_eq]
    show (90 : ℚ) ≤ blendedScore "אב" "אב"
    rw [hb]
    norm_num
  have hconf : confidentHebrew ⟨"1", "c", some "אב", []⟩ [⟨"101", "n", "c", "אב"⟩]
      = [⟨"101", "n", blendedScore "אב" "אב",
          tokenSetScore ("אב" : String).toList ("אב" : String).toList, "אב"⟩] := by
    unfold confidentHebrew
    rw [hheb, List.filter_cons, if_pos hdec]
    rfl
  have hconf_ne : confidentHebrew ⟨"1", "c", some "אב", []⟩
      [⟨"101", "n", "c", "אב"⟩] ≠ [] := by
    rw [hconf]
    simp
  have hrs : rowScores ⟨"1", "c", some "אב", []⟩ [⟨"101", "n", "c", "אב"⟩]
      = hebrewScores ⟨"1", "c", some "אב", []⟩ [⟨"101", "n", "c", "אב"⟩] :=
    rowScores_of_conf_ne _ _ hconf_ne
  have hne : rowScores ⟨"1", "c", some "אב", []⟩ [⟨"101", "n", "c", "אב"⟩] ≠ [] := by
    rw [hrs, hheb]
    simp
  have hmax : maxScore (rowScores ⟨"1", "c", some "אב", []⟩ [⟨"101", "n", "c", "אב"⟩])
      = blendedScore "אב" "אב" := by
    rw [hrs, hheb]
    rfl
  have h90 : 90 ≤ maxScore (rowScores ⟨"1", "c", some "אב", []⟩
      [⟨"101", "n", "c", "אב"⟩]) := by
    rw [hmax, hb]
    norm_num
  exact ⟨⟨hne, h90⟩, (C2_threshold_classification _ _ hne).1 h90⟩



theorem classifyRow_invariant (row : OsmRow) (df : List LamasRow) :
    ((classifyRow row df).status = "CONFIDENT"
      ∨ (classifyRow row df).status = "NEEDS_AI"
      ∨ (classifyRow row df).status = "MISSING")
    ∧ ((classifyRow row df).status = "MISSING"
        ↔ (classifyRow row df).best_LAMAS_id = none)
    ∧ ((classifyRow row df).best_LAMAS_id = none
        ↔ (classifyRow row df).best_LAMAS_name = none)
    ∧ (rowScores row df = []
        → (classifyRow row df).status = "MISSING"
          ∧ (classifyRow row df).best_score = 0) := by
  cases hsub : (lamasSubset row df).isEmpty with
  | true =>
    have hcls : classifyRow row df = ⟨row.osm_id, "MISSING", none, none, 0, none⟩ := by
      unfold classifyRow
      simp [hsub]
    rw [hcls]
    exact ⟨Or.inr (Or.inr rfl), by simp, by simp, fun _ => ⟨rfl, rfl⟩⟩
  | false =>
    cases hpm : pyMax (fun s => s.weighted_score) (confidentHebrew row df) with
    | some best =>
      have hcls := classifyRow_confident_hebrew row df best hsub hpm
      rw [hcls]
      refine ⟨Or.inl rfl, by simp, by simp, ?_⟩
      intro hrs
      exfalso
      have hconf_ne : confidentHebrew row df ≠ [] := by
        intro h
        rw [h] at hpm
        simp [pyMax] at hpm
      have hbmem : best ∈ confidentHebrew row df := (pyMax_spec _ _ _ hpm).1
      have hbheb : best ∈ hebrewScores row df := (List.mem_filter.mp hbmem).1
      have hrow := rowScores_of_conf_ne row df hconf_ne
      rw [hrow] at hrs
      rw [hrs] at hbheb
      simp at hbheb
    | none =>
      cases hall : (allScores row df).isEmpty with
      | true =>
        have hcls : classifyRow row df
            = ⟨row.osm_id, "MISSING", none, none, 0, none⟩ := by
          unfold classifyRow
          rw [hpm]
          simp [hsub, hall]
        rw [hcls]
        exact ⟨Or.inr (Or.inr rfl), by simp, by simp, fun _ => ⟨rfl, rfl⟩⟩
      | false =>
        have hall_ne : allScores row df ≠ [] := by
          intro h
          rw [h] at hall
          simp at hall
        have hconf_nil : confidentHebrew row df = [] := (pyMax_none_iff _ _).mp hpm
        have hrow := rowScores_of_conf_nil row df hconf_nil
        obtain ⟨h0, t, hsorteq, hh0w⟩ := sortScoresDesc_head_max _ hall_ne
        have hdf_eq : scoresDf row df = h0 :: dedupById [h0.LAMAS_id] t := by
          unfold scoresDf
          rw [hsorteq, dedupById_cons_new]
        have hdfF : (scoresDf row df).isEmpty = false := by
          rw [hdf_eq]
          rfl
        have hcls := classifyRow_fallback row df hsub hpm hall hdfF
        have hrs_ne : rowScores row df ≠ [] := by
          rw [hrow]
          exact hall_ne
        cases hh1 : ((scoresDf row df).filter
            (fun s => decide (90 ≤ s.weighted_score))).head? with
        | some c =>
          rw [hcls, hh1]
          exact ⟨Or.inl rfl, by simp, by simp, fun h => absurd h hrs_ne⟩
        | none =>
          cases hh2 : (aiCandidates row df).head? with
          | some b =>
            rw [hcls, hh1, hh2]
            exact ⟨Or.inr (Or.inl rfl), by simp, by simp, fun h => absurd h hrs_ne⟩
          | none =>
            rw [hcls, hh1, hh2]
            exact ⟨Or.inr (Or.inr rfl), by simp, by simp, fun h => absurd h hrs_ne⟩

/-- **C7.** Every row produced by `find_fuzzy_candidates` satisfies the
status invariant: its status is one of `CONFIDENT`, `NEEDS_AI`, `MISSING`;
the status is `MISSING` exactly when the best registry identifier is null
(so `CONFIDENT` and `NEEDS_AI` rows always carry one and `MISSING` rows
never do); the best identifier and best name are null together; and a row
whose list of scored candidates is empty is `MISSING` with best score 0. -/
theorem C7_status_invariant (osm_df : List OsmRow) (df : List LamasRow) :
    ∀ c ∈ find_fuzzy_candidates osm_df df,
      (c.status = "CONFIDENT" ∨ c.status = "NEEDS_AI" ∨ c.status = "MISSING")
      ∧ (c.status = "MISSING" ↔ c.best_LAMAS_id = none)
      ∧ (c.best_LAMAS_id = none ↔ c.best_LAMAS_name = none)
      ∧ ∃ row ∈ osm_df, c = classifyRow row df
          ∧ (rowScores row df = [] → c.status = "MISSING" ∧ c.best_score = 0) := by
  intro c hc
  obtain ⟨row, hrowmem, hceq⟩ := List.mem_map.mp hc
  obtain ⟨h1, h2, h3, h4⟩ := classifyRow_invariant row df
  subst hceq
  exact ⟨h1, h2, h3, row, hrowmem, rfl, h4⟩

/-- Witness for C7: a single OSM row against an empty registry yields the
`MISSING` row, which satisfies the invariant. -/
theorem C7_status_invariant_witness :
    ((⟨"1", "MISSING", none, none, 0, none⟩ : CandRow)
        ∈ find_fuzzy_candidates [⟨"1", "c", none, []⟩] [])
    ∧ (((⟨"1", "MISSING", none, none, 0, none⟩ : CandRow).status = "CONFIDENT"
        ∨ (⟨"1", "MISSING", none, none, 0, none⟩ : CandRow).status = "NEEDS_AI"
        ∨ (⟨"1", "MISSING", none, none, 0, none⟩ : CandRow).status = "MISSING")
      ∧ ((⟨"1", "MISSING", none, none, 0, none⟩ : CandRow).status = "MISSING"
          ↔ (⟨"1", "MISSING", none, none, 0, none⟩ : CandRow).best_LAMAS_id = none)
      ∧ ((⟨"1", "MISSING", none, none, 0, none⟩ : CandRow).best_LAMAS_id = none
          ↔ (⟨"1", "MISSING", none, none, 0, none⟩ : CandRow).best_LAMAS_name = none)
      ∧ ∃ row ∈ ([⟨"1", "c", none, []⟩] : List OsmRow),
          (⟨"1", "MISSING", none, none, 0, none⟩ : CandRow) = classifyRow row []
          ∧ (rowScores row [] = []
              → (⟨"1", "MISSING", none, none, 0, none⟩ : CandRow).status = "MISSING"
                ∧ (⟨"1", "MISSING", none, none, 0, none⟩ : CandRow).best_score = 0)) := by
  have hm : (⟨"1", "MISSING", none, none, 0, none⟩ : CandRow)
      ∈ find_fuzzy_candidates [⟨"1", "c", none, []⟩] [] := by
    show (⟨"1", "MISSING", none, none, 0, none⟩ : CandRow)
      ∈ [classifyRow ⟨"1", "c", none, []⟩ []]
    exact List.mem_singleton.mpr rfl
  exact ⟨hm, C7_status_invariant _ _ _ hm⟩



theorem epGet_cons (k2 : Pt) (vs : List String) (t : List (Pt × List String))
    (p : Pt) : epGet ((k2, vs) :: t) p = if k2 = p then vs else epGet t p := by
  by_cases h : k2 = p
  · subst h
    simp [epGet, List.find?]
  · simp [epGet, List.find?, h]

theorem epGet_epAppend_same (d : List (Pt × List String)) (k : Pt) (v : String) :
    epGet (epAppend d k v) k = epGet d k ++ [v] := by
  induction d with
  | nil =>
    show epGet [(k, [v])] k = epGet [] k ++ [v]
    rw [epGet_cons, if_pos rfl]
    rfl
  | cons e t ih =>
    obtain ⟨k2, vs⟩ := e
    by_cases h : k2 = k
    · subst h
      rw [epAppend, if_pos rfl, epGet_cons, if_pos rfl, epGet_cons, if_pos rfl]
    · rw [epAppend, if_neg h, epGet_cons, if_neg h, epGet_cons, if_neg h, ih]

theorem epGet_epAppend_other (d : List (Pt × List String)) (k p : Pt) (v : String)
    (h : k ≠ p) : epGet (epAppend d k v) p = epGet d p := by
  induction d with
  | nil =>
    show epGet [(k, [v])] p = epGet [] p
    rw [epGet_cons, if_neg h]
  | cons e t ih =>
    obtain ⟨k2, vs⟩ := e
    by_cases h2 : k2 = k
    · subst h2
      rw [epAppend, if_pos rfl, epGet_cons, epGet_cons, if_neg h, if_neg h]
    · rw [epAppend, if_neg h2, epGet_cons, epGet_cons, ih]

theorem mem_epGet_epAppend {j v : String} {d : List (Pt × List String)}
    {k p : Pt} :
    j ∈ epGet (epAppend d k v) p ↔ j ∈ epGet d p ∨ (j = v ∧ k = p) := by
  by_cases h : k = p
  · subst h
    rw [epGet_epAppend_same, List.mem_append, List.mem_singleton]
    simp
  · rw [epGet_epAppend_other d k p v h]
    simp [h]

theorem mem_epGet_foldl (rows : List OsmSeg) (j : String) (p : Pt) :
    ∀ idx0, j ∈ epGet (rows.foldl (fun idx r =>
        epAppend (epAppend idx (coordsFirst r.geometry) r.osm_id)
          (coordsLast r.geometry) r.osm_id) idx0) p
      ↔ j ∈ epGet idx0 p
        ∨ ∃ r ∈ rows, r.osm_id = j
            ∧ (coordsFirst r.geometry = p ∨ coordsLast r.geometry = p) := by
  induction rows with
  | nil =>
    intro idx0
    simp
  | cons x t ih =>
    intro idx0
    rw [List.foldl_cons, ih, mem_epGet_epAppend, mem_epGet_epAppend]
    constructor
    · rintro (((hm | ⟨rfl, hk⟩) | ⟨rfl, hk⟩) | ⟨r, hr, hj, hp⟩)
      · exact Or.inl hm
      · exact Or.inr ⟨x, List.mem_cons_self .., rfl, Or.inl hk⟩
      · exact Or.inr ⟨x, List.mem_cons_self .., rfl, Or.inr hk⟩
      · exact Or.inr ⟨r, List.mem_cons_of_mem _ hr, hj, hp⟩
    · rintro (hm | ⟨r, hr, hj, hp⟩)
      · exact Or.inl (Or.inl (Or.inl hm))
      · rcases List.mem_cons.mp hr with rfl | hr
        · rcases hp with hp | hp
          · exact Or.inl (Or.inl (Or.inr ⟨hj.symm, hp⟩))
          · exact Or.inl (Or.inr ⟨hj.symm, hp⟩)
        · exact Or.inr ⟨r, hr, hj, hp⟩

theorem mapGet_cons (k2 : String) (v2 : List String)
    (t : List (String × List String)) (i : String) :
    mapGet ((k2, v2) :: t) i = if k2 = i then some v2 else mapGet t i := by
  by_cases h : k2 = i
  · subst h
    simp [mapGet, List.find?]
  · have hb : (k2 == i) = false := by simpa using h
    simp [mapGet, List.find?, hb, h]

theorem mapGet_mapSet_same (m : List (String × List String)) (k : String)
    (v : List String) : mapGet (mapSet m k v) k = some v := by
  induction m with
  | nil =>
    show mapGet [(k, v)] k = some v
    rw [mapGet_cons, if_pos rfl]
  | cons e t ih =>
    obtain ⟨k2, v2⟩ := e
    by_cases h : k2 = k
    · rw [mapSet, if_pos h, mapGet_cons, if_pos rfl]
    · rw [mapSet, if_neg h, mapGet_cons, if_neg h, ih]

theorem mapGet_mapSet_other (m : List (String × List String)) (k i : String)
    (v : List String) (h : k ≠ i) : mapGet (mapSet m k v) i = mapGet m i := by
  induction m with
  | nil =>
    show mapGet [(k, v)] i = mapGet [] i
    rw [mapGet_cons, if_neg h]
  | cons e t ih =>
    obtain ⟨k2, v2⟩ := e
    by_cases h2 : k2 = k
    · subst h2
      rw [mapSet, if_pos rfl, mapGet_cons, mapGet_cons, if_neg h, if_neg h]
    · rw [mapSet, if_neg h2, mapGet_cons, mapGet_cons, ih]

theorem mapGet_foldl_not_mem (f : OsmSeg → List String) (rows : List OsmSeg)
    (i : String) (h : i ∉ rows.map OsmSeg.osm_id) :
    ∀ m0, mapGet (rows.foldl (fun m r => mapSet m r.osm_id (f r)) m0) i
      = mapGet m0 i := by
  induction rows with
  | nil =>
    intro m0
    rfl
  | cons x t ih =>
    intro m0
    simp only [List.map_cons, List.mem_cons] at h
    push_neg at h
    rw [List.foldl_cons, ih h.2, mapGet_mapSet_other _ _ _ _ (Ne.symm h.1)]

theorem mapGet_foldl_mem (f : OsmSeg → List String) (rows : List OsmSeg) :
    ∀ m0, (rows.map OsmSeg.osm_id).Nodup →
      ∀ r ∈ rows, mapGet (rows.foldl (fun m r => mapSet m r.osm_id (f r)) m0)
        r.osm_id = some (f r) := by
  induction rows with
  | nil =>
    intro m0 _ r hr
    simp at hr
  | cons x t ih =>
    intro m0 hnd r hr
    simp only [List.map_cons, List.nodup_cons] at hnd
    rcases List.mem_cons.mp hr with rfl | hr
    · rw [List.foldl_cons, mapGet_foldl_not_mem f t _ hnd.1, mapGet_mapSet_same]
    · rw [List.foldl_cons]
      exact ih _ hnd.2 r hr

theorem adjRows_map_osm_id (segs : List OsmSeg) :
    (adjRows segs).map OsmSeg.osm_id = segs.map OsmSeg.osm_id := by
  simp only [adjRows, List.map_map]
  rfl

theorem adjRows_map_geometry (segs : List OsmSeg) :
    (adjRows segs).map OsmSeg.geometry = segs.map OsmSeg.geometry := by
  simp only [adjRows, List.map_map]
  rfl

theorem adjacencyOf_eq (segs : List OsmSeg)
    (hnodup : (segs.map OsmSeg.osm_id).Nodup) (A : OsmSeg) (hA : A ∈ segs) :
    adjacencyOf segs A.osm_id = segAdjacents (endpointIndex segs) A := by
  have hF : segs.isEmpty = false := by
    cases segs with
    | nil => simp at hA
    | cons x t => rfl
  have hb : (build_adjacency_map segs).2
      = (adjRows segs).foldl (fun m r =>
          mapSet m r.osm_id (segAdjacents (endpointIndex segs) r)) [] := by
    simp [build_adjacency_map, hF]
  have hmem : adjRow A ∈ adjRows segs := List.mem_map_of_mem _ hA
  have hnd : ((adjRows segs).map OsmSeg.osm_id).Nodup := by
    rw [adjRows_map_osm_id]
    exact hnodup
  have hget := mapGet_foldl_mem (segAdjacents (endpointIndex segs))
    (adjRows segs) [] hnd (adjRow A) hmem
  unfold adjacencyOf
  rw [hb]
  have hid : (adjRow A).osm_id = A.osm_id := rfl
  rw [hid] at hget
  rw [hget]
  rfl

theorem mem_epGet_endpointIndex (segs : List OsmSeg) (j : String) (p : Pt) :
    j ∈ epGet (endpointIndex segs) p
      ↔ ∃ s ∈ segs, s.osm_id = j
          ∧ (coordsFirst s.geometry = p ∨ coordsLast s.geometry = p) := by
  unfold endpointIndex
  rw [mem_epGet_foldl]
  constructor
  · rintro (h | ⟨r, hr, hj, hp⟩)
    · simp [epGet] at h
    · obtain ⟨s, hs, rfl⟩ := List.mem_map.mp hr
      exact ⟨s, hs, hj, hp⟩
  · rintro ⟨s, hs, hj, hp⟩
    exact Or.inr ⟨adjRow s, List.mem_map_of_mem _ hs, hj, hp⟩

theorem mem_adjacencyOf (segs : List OsmSeg)
    (hnodup : (segs.map OsmSeg.osm_id).Nodup) (A : OsmSeg) (hA : A ∈ segs)
    (j : String) :
    j ∈ adjacencyOf segs A.osm_id
      ↔ j ≠ A.osm_id
        ∧ ∃ s ∈ segs, s.osm_id = j
            ∧ (coordsFirst s.geometry = coordsFirst A.geometry
              ∨ coordsFirst s.geometry = coordsLast A.geometry
              ∨ coordsLast s.geometry = coordsFirst A.geometry
              ∨ coordsLast s.geometry = coordsLast A.geometry) := by
  rw [adjacencyOf_eq segs hnodup A hA]
  unfold segAdjacents
  rw [List.mem_dedup, List.mem_filter, List.mem_append,
    mem_epGet_endpointIndex, mem_epGet_endpointIndex]
  constructor
  · rintro ⟨h1 | h1, h2⟩ <;>
      refine ⟨by simpa using h2, ?_⟩
    · obtain ⟨s, hs, hj, hp⟩ := h1
      rcases hp with hp | hp
      · exact ⟨s, hs, hj, Or.inl hp⟩
      · exact ⟨s, hs, hj, Or.inr (Or.inr (Or.inl hp))⟩
    · obtain ⟨s, hs, hj, hp⟩ := h1
      rcases hp with hp | hp
      · exact ⟨s, hs, hj, Or.inr (Or.inl hp)⟩
      · exact ⟨s, hs, hj, Or.inr (Or.inr (Or.inr hp))⟩
  · rintro ⟨hne, s, hs, hj, hp⟩
    refine ⟨?_, by simpa using hne⟩
    rcases hp with hp | hp | hp | hp
    · exact Or.inl ⟨s, hs, hj, Or.inl hp⟩
    · exact Or.inr ⟨s, hs, hj, Or.inl hp⟩
    · exact Or.inl ⟨s, hs, hj, Or.inr hp⟩
    · exact Or.inr ⟨s, hs, hj, Or.inr hp⟩

theorem mem_adjacencyOf_symm_aux (segs : List OsmSeg)
    (hnodup : (segs.map OsmSeg.osm_id).Nodup) (A B : OsmSeg)
    (hA : A ∈ segs) (hB : B ∈ segs)
    (h : B.osm_id ∈ adjacencyOf segs A.osm_id) :
    A.osm_id ∈ adjacencyOf segs B.osm_id := by
  rw [mem_adjacencyOf segs hnodup A hA] at h
  rw [mem_adjacencyOf segs hnodup B hB]
  obtain ⟨hne, s, hs, hj, hp⟩ := h
  have hsB : s = B := List.inj_on_of_nodup_map hnodup hs hB hj
  subst hsB
  refine ⟨Ne.symm hne, A, hA, rfl, ?_⟩
  rcases hp with hp | hp | hp | hp
  · exact Or.inl hp.symm
  · exact Or.inr (Or.inr (Or.inl hp.symm))
  · exact Or.inr (Or.inl hp.symm)
  · exact Or.inr (Or.inr (Or.inr hp.symm))

/-- **C5.** The adjacency relation built by `build_adjacency_map` is
symmetric: for every segment collection with pairwise-distinct identifiers
whose geometries have at least two points, and all segments `A`, `B` in it,
`B`'s id lies in the adjacency list of `A`'s id exactly when `A`'s id lies
in the adjacency list of `B`'s id. -/
theorem C5_adjacency_symmetric (segs : List OsmSeg)
    (hnodup : (segs.map OsmSeg.osm_id).Nodup)
    (hgeom : ∀ s ∈ segs, s.geometry.2 ≠ [])
    (A B : OsmSeg) (hA : A ∈ segs) (hB : B ∈ segs) :
    B.osm_id ∈ adjacencyOf segs A.osm_id
      ↔ A.osm_id ∈ adjacencyOf segs B.osm_id :=
  ⟨mem_adjacencyOf_symm_aux segs hnodup A B hA hB,
    mem_adjacencyOf_symm_aux segs hnodup B A hB hA⟩

/-- Witness for C5: two segments sharing the endpoint `(1, 1)` are mutually
adjacent, and the symmetry equivalence holds for them. -/
theorem C5_adjacency_symmetric_witness :
    (([⟨"a", ((0, 0), [(1, 1)]), none, none⟩,
        ⟨"b", ((1, 1), [(2, 2)]), none, none⟩] : List OsmSeg).map
          OsmSeg.osm_id).Nodup
    ∧ (∀ s ∈ ([⟨"a", ((0, 0), [(1, 1)]), none, none⟩,
        ⟨"b", ((1, 1), [(2, 2)]), none, none⟩] : List OsmSeg),
          s.geometry.2 ≠ [])
    ∧ (⟨"a", ((0, 0), [(1, 1)]), none, none⟩ : OsmSeg)
        ∈ ([⟨"a", ((0, 0), [(1, 1)]), none, none⟩,
            ⟨"b", ((1, 1), [(2, 2)]), none, none⟩] : List OsmSeg)
    ∧ (⟨"b", ((1, 1), [(2, 2)]), none, none⟩ : OsmSeg)
        ∈ ([⟨"a", ((0, 0), [(1, 1)]), none, none⟩,
            ⟨"b", ((1, 1), [(2, 2)]), none, none⟩] : List OsmSeg)
    ∧ "b" ∈ adjacencyOf [⟨"a", ((0, 0), [(1, 1)]), none, none⟩,
        ⟨"b", ((1, 1), [(2, 2)]), none, none⟩] "a"
    ∧ ("b" ∈ adjacencyOf [⟨"a", ((0, 0), [(1, 1)]), none, none⟩,
          ⟨"b", ((1, 1), [(2, 2)]), none, none⟩] "a"
        ↔ "a" ∈ adjacencyOf [⟨"a", ((0, 0), [(1, 1)]), none, none⟩,
            ⟨"b", ((1, 1), [(2, 2)]), none, none⟩] "b") := by
  refine ⟨by decide, by decide, by decide, by decide, by decide, ?_⟩
  exact C5_adjacency_symmetric
    [⟨"a", ((0, 0), [(1, 1)]), none, none⟩,
      ⟨"b", ((1, 1), [(2, 2)]), none, none⟩]
    (by decide) (by decide)
    ⟨"a", ((0, 0), [(1, 1)]), none, none⟩
    ⟨"b", ((1, 1), [(2, 2)]), none, none⟩
    (by decide) (by decide)

/-- Counterexample to C10 as stated: `build_adjacency_map` writes the
`start_point` and `end_point` columns into its input frame, so the returned
frame differs from the input whenever those columns were not already
set. -/
theorem C10_counterexample :
    (build_adjacency_map [⟨"a", ((0, 0), [(1, 1)]), none, none⟩]).1
      ≠ [⟨"a", ((0, 0), [(1, 1)]), none, none⟩] := by
  decide

/-- **C10 (amended).** `build_adjacency_map` leaves every pre-existing
field of the segment collection unchanged — identifiers and geometries are
preserved row for row — but it does mutate the frame by assigning the
`start_point` and `end_point` endpoint columns (on a non-empty input the
returned frame is exactly the input with those two columns filled in), so
the claim's "no columns added or modified" is false as stated; see
`C10_counterexample`. -/
theorem C10_frame_effect (segs : List OsmSeg) :
    ((build_adjacency_map segs).1.map OsmSeg.osm_id = segs.map OsmSeg.osm_id
      ∧ (build_adjacency_map segs).1.map OsmSeg.geometry
          = segs.map OsmSeg.geometry)
    ∧ (segs ≠ [] → (build_adjacency_map segs).1
        = segs.map (fun r =>
            { r with start_point := some (coordsFirst r.geometry)
                     end_point := some (coordsLast r.geometry) })) := by
  by_cases h : segs.isEmpty
  · have hnil : segs = [] := List.isEmpty_iff.mp h
    subst hnil
    exact ⟨⟨rfl, rfl⟩, fun hc => absurd rfl hc⟩
  · have hF : segs.isEmpty = false := by simpa using h
    have hb : (build_adjacency_map segs).1 = adjRows segs := by
      simp [build_adjacency_map, hF]
    refine ⟨⟨?_, ?_⟩, fun _ => ?_⟩
    · rw [hb]
      exact adjRows_map_osm_id segs
    · rw [hb]
      exact adjRows_map_geometry segs
    · rw [hb]
      rfl

/-- Witness for C10 (amended) on a one-segment frame. -/
theorem C10_frame_effect_witness :
    (build_adjacency_map [⟨"a", ((0, 0), [(1, 1)]), none, none⟩]).1.map
        OsmSeg.osm_id
      = ([⟨"a", ((0, 0), [(1, 1)]), none, none⟩] : List OsmSeg).map
          OsmSeg.osm_id
    ∧ ([⟨"a", ((0, 0), [(1, 1)]), none, none⟩] : List OsmSeg) ≠ []
    ∧ (build_adjacency_map [⟨"a", ((0, 0), [(1, 1)]), none, none⟩]).1
        = ([⟨"a", ((0, 0), [(1, 1)]), none, none⟩] : List OsmSeg).map
            (fun r => { r with start_point := some (coordsFirst r.geometry)
                               end_point := some (coordsLast r.geometry) }) :=
  ⟨(C10_frame_effect [⟨"a", ((0, 0), [(1, 1)]), none, none⟩]).1.1,
    by decide,
    (C10_frame_effect [⟨"a", ((0, 0), [(1, 1)]), none, none⟩]).2 (by decide)⟩



theorem not_digit_of_ws (c : Char) (h : isWs c = true) : Char.isDigit c = false := by
  have h2 : ((c = Char.ofNat 32 ∨ c = Char.ofNat 9) ∨ c = Char.ofNat 13)
      ∨ c = Char.ofNat 10 := by
    simpa [isWs, Char.isWhitespace] using h
  rcases h2 with ((h2 | h2) | h2) | h2 <;> subst h2 <;> decide

theorem filter_digit_trimRight (l : List Char) :
    (trimRight l).filter Char.isDigit = l.filter Char.isDigit := by
  induction l with
  | nil => rfl
  | cons c t ih =>
    rcases trimRight_eq c t with he | he
    · rw [he]
      have hw := all_ws_of_trimRight_nil (c :: t) he
      symm
      show List.filter Char.isDigit (c :: t) = ([] : List Char)
      rw [List.filter_eq_nil_iff]
      intro a ha
      rw [not_digit_of_ws a (hw a ha)]
      simp
    · rw [he, List.filter_cons, List.filter_cons, ih]

theorem filter_digit_dropWhile (l : List Char) :
    (l.dropWhile isWs).filter Char.isDigit = l.filter Char.isDigit := by
  induction l with
  | nil => rfl
  | cons c t ih =>
    by_cases hw : isWs c = true
    · rw [List.dropWhile_cons, if_pos hw, ih, List.filter_cons,
        not_digit_of_ws c hw]
      simp
    · rw [List.dropWhile_cons, if_neg hw]

theorem cleanAiText_eq (t : String) :
    cleanAiText t = if (t.toList.filter Char.isDigit).isEmpty then "None"
      else String.mk (t.toList.filter Char.isDigit) := by
  simp only [cleanAiText, trimWs]
  rw [filter_digit_trimRight, filter_digit_dropWhile]

/-- **C9.** When the key is present and the first attempt succeeds with
reply text `t`, `get_ai_resolution` returns the concatenation of all
decimal digit characters of `t` (leading/trailing whitespace stripping
cannot change them), and returns the `'None'` sentinel exactly when `t`
contains no digit character — so any reply containing a digit anywhere is
returned as a chosen identifier. -/
theorem C9_digit_concatenation (k : String) (hk : k ≠ "") (t : String)
    (rest : List (Option String)) :
    (get_ai_resolution (some k) (some t :: rest)
        = if (t.toList.filter Char.isDigit).isEmpty then "None"
          else String.mk (t.toList.filter Char.isDigit))
    ∧ (get_ai_resolution (some k) (some t :: rest) = "None"
        ↔ t.toList.all (fun c => !c.isDigit) = true) := by
  have hkF : k.isEmpty = false := by
    cases hh : k.isEmpty
    · rfl
    · exact absurd ((String.isEmpty_iff k).mp hh) hk
  have hkey : pyTruthyOptStr (some k) = true := by
    simp [pyTruthyOptStr, hkF]
  have hres : get_ai_resolution (some k) (some t :: rest) = cleanAiText t := by
    simp only [get_ai_resolution, hkey, if_true]
    rfl
  rw [hres, cleanAiText_eq]
  refine ⟨rfl, ?_⟩
  by_cases hd : (t.toList.filter Char.isDigit).isEmpty = true
  · rw [if_pos hd]
    have hall : t.toList.all (fun c => !c.isDigit) = true := by
      rw [List.all_eq_true]
      intro c hc
      have hnil := List.isEmpty_iff.mp hd
      rw [List.filter_eq_nil_iff] at hnil
      simpa using hnil c hc
    exact iff_of_true rfl hall
  · rw [if_neg hd]
    have hne : t.toList.filter Char.isDigit ≠ [] := by
      intro h
      rw [h] at hd
      exact hd rfl
    obtain ⟨c, cs, hcons⟩ : ∃ c cs, t.toList.filter Char.isDigit = c :: cs := by
      cases hx : t.toList.filter Char.isDigit with
      | nil => exact absurd hx hne
      | cons a b => exact ⟨a, b, rfl⟩
    have hmk : String.mk (t.toList.filter Char.isDigit) ≠ "None" := by
      intro he
      have hdata : t.toList.filter Char.isDigit = "None".toList :=
        congrArg String.toList he
      have hN : (Char.ofNat 78) ∈ t.toList.filter Char.isDigit := by
        rw [hdata]
        decide
      have := (List.mem_filter.mp hN).2
      exact absurd this (by decide)
    have hdig : ¬ (t.toList.all (fun c => !c.isDigit) = true) := by
      intro hall
      rw [List.all_eq_true] at hall
      have hcmem : c ∈ t.toList.filter Char.isDigit := by
        rw [hcons]
        exact List.mem_cons_self ..
      obtain ⟨hct, hcd⟩ := List.mem_filter.mp hcmem
      have := hall c hct
      simp [hcd] at this
    exact iff_of_false hmk hdig

/-- Witness for C9: the reply `"abc 12x3"` contains digits inside other
text; the returned identifier is their concatenation `"123"`. -/
theorem C9_digit_concatenation_witness :
    ("key" ≠ "")
    ∧ (get_ai_resolution (some "key") [some "abc 12x3"]
        = if (("abc 12x3" : String).toList.filter Char.isDigit).isEmpty then "None"
          else String.mk (("abc 12x3" : String).toList.filter Char.isDigit))
    ∧ (get_ai_resolution (some "key") [some "abc 12x3"] = "None"
        ↔ ("abc 12x3" : String).toList.all (fun c => !c.isDigit) = true)
    ∧ get_ai_resolution (some "key") [some "abc 12x3"] = "123" := by
  have h := C9_digit_concatenation "key" (by decide) "abc 12x3" []
  exact ⟨by decide, h.1, h.2, by decide⟩

/-- **C1 (code bug).** With arbitration disabled (or no key available) no
decision rows are produced, yet a `NEEDS_AI` segment is not dropped from
the final mapping: the left-merge leaves its decision column null, pandas
`astype(str)` prints that null as `"nan"`, `"nan" != 'None'` holds, and the
segment therefore receives the bogus final registry identifier `"nan"`
instead of degrading to unmatched.  By contrast an explicit `'None'`
verdict (the no-match sentinel, as returned after exhausted retries) is
correctly dropped.  This refutes the claim that every such segment receives
no final registry identifier. -/
theorem C1_degradation_bug :
    aiStep false none (fun _ => "None") ["1"]
        [⟨"1", "NEEDS_AI", some "101", some "n", 85, some []⟩] = []
    ∧ aiStep true none (fun _ => "None") ["1"]
        [⟨"1", "NEEDS_AI", some "101", some "n", 85, some []⟩] = []
    ∧ run_merge [⟨"1", "NEEDS_AI", some "101", some "n", 85, some []⟩] []
        = [⟨"1", "NEEDS_AI", some "101", none, "nan"⟩]
    ∧ run_merge [⟨"1", "NEEDS_AI", some "101", some "n", 85, some []⟩]
        [⟨"1", "None"⟩] = [] :=
  ⟨rfl, rfl, rfl, rfl⟩



theorem mem_insertStr {x y : String} {l : List String} :
    y ∈ insertStr x l ↔ y = x ∨ y ∈ l := by
  induction l with
  | nil => simp [insertStr]
  | cons z zs ih =>
    by_cases h : lexLt x.toList z.toList
    · rw [insertStr, if_pos h]
      simp [List.mem_cons]
    · rw [insertStr, if_neg h, List.mem_cons, ih, List.mem_cons]
      tauto

theorem mem_sortStr {y : String} {l : List String} : y ∈ sortStr l ↔ y ∈ l := by
  induction l with
  | nil => simp [sortStr]
  | cons z zs ih => rw [sortStr, mem_insertStr, ih, List.mem_cons]

theorem dedupByLamasId_sublist : ∀ (seen : List String) (l : List LamasCityRow),
    List.Sublist (dedupByLamasId seen l) l := by
  intro seen l
  induction seen, l using dedupByLamasId.induct with
  | case1 seen => exact List.Sublist.refl []
  | case2 seen r t hc ih =>
    rw [dedupByLamasId, if_pos hc]
    exact List.Sublist.cons r ih
  | case3 seen r t hc ih =>
    rw [dedupByLamasId, if_neg hc]
    exact List.Sublist.cons₂ r ih

/-- Counterexample to C8 as stated: the registry carries identifier `111`
under the synonym names `a` and `b`, and identifier `222` under the same
name string `a`.  A segment resolves to `111`, yet the name `a` — a name of
the matched identifier `111` — still appears in the unmatched-registry list,
as the groupby-first representative of the unmatched identifier `222`. -/
theorem C8_counterexample :
    (⟨"111", "a"⟩ : LamasCityRow)
        ∈ ([⟨"111", "a"⟩, ⟨"111", "b"⟩, ⟨"222", "a"⟩] : List LamasCityRow)
    ∧ (⟨"111", "b"⟩ : LamasCityRow)
        ∈ ([⟨"111", "a"⟩, ⟨"111", "b"⟩, ⟨"222", "a"⟩] : List LamasCityRow)
    ∧ some "111" ∈ ([⟨"s", some "CONFIDENT", some "111"⟩] : List DiagRow).map
        DiagRow.final_LAMAS_id
    ∧ "a" ∈ (calculate_diagnostics
        [⟨"111", "a"⟩, ⟨"111", "b"⟩, ⟨"222", "a"⟩]
        [⟨"s", some "CONFIDENT", some "111"⟩]
        [some "s"]).unmatched_lamas_street_names := by
  decide

/-- **C8 (amended).** The unmatched-registry diagnostic is grouped by
identifier: if identifier `i` is matched by some segment's final mapping
(under any of its synonym names), then no name that occurs in the registry
only with identifier `i` can appear in the unmatched-registry-entries list.
The restriction "occurs only with identifier `i`" is forced by
`C8_counterexample`: a name string shared with a different, unmatched
identifier can still be listed as that identifier's representative. -/
theorem C8_synonym_grouping (lamas : List LamasCityRow) (diag : List DiagRow)
    (osm : List (Option String)) (i n : String)
    (hmatched : i ∈ (diag.filterMap (fun d => d.final_LAMAS_id)).map stripDot0)
    (hnames : ∀ r ∈ lamas, r.LAMAS_name = n → r.LAMAS_id = i) :
    n ∉ (calculate_diagnostics lamas diag osm).unmatched_lamas_street_names := by
  intro hmem
  have hproj : (calculate_diagnostics lamas diag osm).unmatched_lamas_street_names
      = sortStr ((dedupByLamasId []
          ((lamas.filter (fun r => r.LAMAS_id.length == 3)).filter
            (fun r => !((((diag.filterMap (fun d => d.final_LAMAS_id)).map
              stripDot0).dedup).contains r.LAMAS_id)))).map
          (fun r => r.LAMAS_name)) := rfl
  rw [hproj, mem_sortStr] at hmem
  obtain ⟨r, hr, hrn⟩ := List.mem_map.mp hmem
  have hrum := (dedupByLamasId_sublist [] _).subset hr
  have h2 := List.mem_filter.mp hrum
  have h3 := List.mem_filter.mp h2.1
  have hid : r.LAMAS_id = i := hnames r h3.1 hrn
  have hcontains : (((diag.filterMap (fun d => d.final_LAMAS_id)).map
      stripDot0).dedup).contains r.LAMAS_id = false := by
    simpa using h2.2
  rw [hid] at hcontains
  have hmemd : i ∈ ((diag.filterMap (fun d => d.final_LAMAS_id)).map
      stripDot0).dedup := List.mem_dedup.mpr hmatched
  have : (((diag.filterMap (fun d => d.final_LAMAS_id)).map
      stripDot0).dedup).contains i = true := by
    simpa using hmemd
  rw [this] at hcontains
  exact absurd hcontains (by simp)

/-- Witness for C8 (amended): identifier `111` is matched; its synonym
names `a` and `b` occur only with `111`, and neither is reported
unmatched. -/
theorem C8_synonym_grouping_witness :
    ("111" ∈ (([⟨"s", some "CONFIDENT", some "111"⟩] : List DiagRow).filterMap
        (fun d => d.final_LAMAS_id)).map stripDot0)
    ∧ (∀ r ∈ ([⟨"111", "a"⟩, ⟨"111", "b"⟩] : List LamasCityRow),
        r.LAMAS_name = "a" → r.LAMAS_id = "111")
    ∧ (∀ r ∈ ([⟨"111", "a"⟩, ⟨"111", "b"⟩] : List LamasCityRow),
        r.LAMAS_name = "b" → r.LAMAS_id = "111")
    ∧ "a" ∉ (calculate_diagnostics [⟨"111", "a"⟩, ⟨"111", "b"⟩]
        [⟨"s", some "CONFIDENT", some "111"⟩] [some "s"]).unmatched_lamas_street_names
    ∧ "b" ∉ (calculate_diagnostics [⟨"111", "a"⟩, ⟨"111", "b"⟩]
        [⟨"s", some "CONFIDENT", some "111"⟩] [some "s"]).unmatched_lamas_street_names := by
  refine ⟨by decide, by decide, by decide, ?_, ?_⟩
  · exact C8_synonym_grouping [⟨"111", "a"⟩, ⟨"111", "b"⟩]
      [⟨"s", some "CONFIDENT", some "111"⟩] [some "s"] "111" "a"
      (by decide) (by decide)
  · exact C8_synonym_grouping [⟨"111", "a"⟩, ⟨"111", "b"⟩]
      [⟨"s", some "CONFIDENT", some "111"⟩] [some "s"] "111" "b"
      (by decide) (by decide)


end StreetsNameId
